import Mathlib

/-!
Verification of the ipcz routing engine sources against their natural-language
specification.  The development shallowly embeds the relevant C++ components:

* `SequencedQueue` from `src/ipcz/sequenced_queue.h` (claims C1-C4): the sparse
  sequence-ordered buffer with O(1) span accounting.
* `NodeLink::BypassProxy` from `src/core/node_link.cc` together with the
  router's pause-outbound-transmission behaviour (claim C5).
* `Trap` from `src/core/trap.cc` (claims C6, C7).
* `RoutedPortalBackend` get paths from `src/core/routed_portal_backend.cc`
  (claims C8, C9).
* `Portal::Put` portal-attachment validation from `src/core/portal.cc`
  (claim C10).

Machine integers (`SequenceNumber` is `uint64_t`) are modelled as `Nat`;
wraparound is modelled explicitly (`% 2^64`) at the single point where the
source can overflow, namely the `new_limit == 0` check in
`SequencedQueue::Push`.  Elsewhere all arithmetic is guarded by comparisons in
the source, so no wrap can occur for in-range values.
-/

set_option maxHeartbeats 1000000

namespace Ipcz

/-- Numeric bound of the 64-bit `SequenceNumber` type (`uint64_t`). -/
def twoPow64 : Nat := 2 ^ 64

/-- One slot of `SequencedQueue::storage_`, mirroring `SequencedQueue::Entry`:
the element payload plus the span-accounting metadata maintained by
`PlaceNewEntry` and `Pop`.  The element type parameter `T` of the template is
instantiated with `Nat`; `ElementTraits::GetElementSize` becomes an explicit
size function `sz : Nat → Nat` threaded through the operations. -/
structure Entry where
  element : Nat
  num_entries_in_span : Nat
  total_span_size : Nat
  span_start : Nat
  span_end : Nat
  deriving Repr, DecidableEq

/-- State of a `SequencedQueue<T>`.  `entry i` is the content of
`entries_[i]` for `i < len` (`len` is `entries_.size()`), and `none` for
`i ≥ len`: slots of `storage_` outside the `entries_` view are always
unoccupied in the source (they are value-initialized or have been `reset()`),
so the view determines the whole observable state. -/
structure SequencedQueue where
  len : Nat
  entry : Nat → Option Entry
  base_sequence_number : Nat
  num_entries : Nat
  final_sequence_length : Option Nat

namespace SequencedQueue

/-- Mirrors `SequencedQueue::GetMaxSequenceGap()` (returns 1000000). -/
def getMaxSequenceGap : Nat := 1000000

/-- Mirrors `SequencedQueue::current_sequence_number()`. -/
def currentSequenceNumber (q : SequencedQueue) : Nat := q.base_sequence_number

/-- Mirrors `SequencedQueue::GetNumAvailableElements`: zero when the view is
empty or the head slot unoccupied, else the head entry's
`num_entries_in_span`. -/
def getNumAvailableElements (q : SequencedQueue) : Nat :=
  if q.len = 0 then 0
  else
    match q.entry 0 with
    | none => 0
    | some head => head.num_entries_in_span

/-- Mirrors `SequencedQueue::GetTotalAvailableElementSize`: zero when the view
is empty or the head slot unoccupied, else the head entry's
`total_span_size`. -/
def getTotalAvailableElementSize (q : SequencedQueue) : Nat :=
  if q.len = 0 then 0
  else
    match q.entry 0 with
    | none => 0
    | some head => head.total_span_size

/-- Mirrors `SequencedQueue::Reallocate(sequence_length)`.  On success the
`entries_` view is resized to `sequence_length - base_sequence_number_` slots;
slots carried over keep their contents and newly exposed slots are unoccupied
(both the fast path over left-over storage and the reallocation path expose
only value-initialized or reset optionals). -/
def reallocate (q : SequencedQueue) (sequence_length : Nat) :
    Option SequencedQueue :=
  if sequence_length < q.base_sequence_number then none
  else
    let new_entries_size := sequence_length - q.base_sequence_number
    if getMaxSequenceGap < new_entries_size then none
    else
      some { q with
        len := new_entries_size,
        entry := fun i =>
          if i < new_entries_size then
            (if i < q.len then q.entry i else none)
          else none }

/-- First half of `SequencedQueue::PlaceNewEntry`'s span bookkeeping: the new
entry absorbs the span of its left neighbour when `index > 0` and
`entries_[index - 1]` is occupied. -/
def spanJoinLeft (q : SequencedQueue) (index n : Nat) (e0 : Entry) : Entry :=
  if index = 0 ∨ (q.entry (index - 1)).isNone then { e0 with span_start := n }
  else
    match q.entry (index - 1) with
    | some left =>
      { e0 with
        span_start := left.span_start,
        num_entries_in_span := e0.num_entries_in_span + left.num_entries_in_span,
        total_span_size := e0.total_span_size + left.total_span_size }
    | none => { e0 with span_start := n }

/-- Second half of `SequencedQueue::PlaceNewEntry`'s span bookkeeping: the new
entry absorbs the span of its right neighbour when `index` is not the last
slot and `entries_[index + 1]` is occupied. -/
def spanJoinRight (q : SequencedQueue) (index n : Nat) (e1 : Entry) : Entry :=
  if index = q.len - 1 ∨ (q.entry (index + 1)).isNone then
    { e1 with span_end := n }
  else
    match q.entry (index + 1) with
    | some right =>
      { e1 with
        span_end := right.span_end,
        num_entries_in_span := e1.num_entries_in_span + right.num_entries_in_span,
        total_span_size := e1.total_span_size + right.total_span_size }
    | none => { e1 with span_end := n }

/-- The fully initialized entry written into slot `index` by
`SequencedQueue::PlaceNewEntry` (its `num_entries_in_span` starts at 1 and its
`total_span_size` at `ElementTraits::GetElementSize(element)`, then both
halves of the neighbouring-span bookkeeping are applied). -/
def placedEntry (sz : Nat → Nat) (q : SequencedQueue) (index n element : Nat) :
    Entry :=
  spanJoinRight q index n
    (spanJoinLeft q index n
      { element := element, num_entries_in_span := 1,
        total_span_size := sz element, span_start := 0, span_end := 0 })

/-- Slot index of the head entry of the span joined by `PlaceNewEntry`:
slot 0 when the combined entry's `span_start` does not exceed
`base_sequence_number_` (the source's guarded pointer lookup), else
`span_start - base_sequence_number_`. -/
def placeStartIndex (sz : Nat → Nat) (q : SequencedQueue) (index n element : Nat) :
    Nat :=
  if (placedEntry sz q index n element).span_start ≤ q.base_sequence_number then 0
  else (placedEntry sz q index n element).span_start - q.base_sequence_number

/-- Slot index of the tail entry of the span joined by `PlaceNewEntry`:
`span_end - base_sequence_number_`. -/
def placeEndIndex (sz : Nat → Nat) (q : SequencedQueue) (index n element : Nat) :
    Nat :=
  (placedEntry sz q index n element).span_end - q.base_sequence_number

/-- The slot contents after `PlaceNewEntry` has written the new entry at
`index` but before the head/tail pointer writes. -/
def placeBase (sz : Nat → Nat) (q : SequencedQueue) (index n element : Nat) :
    Nat → Option Entry := fun i =>
  if i = index then some (placedEntry sz q index n element) else q.entry i

/-- The slot contents after `PlaceNewEntry`'s first pointer write: the head
entry of the joined span receives the combined `span_end`, count and size. -/
def placeMid (sz : Nat → Nat) (q : SequencedQueue) (index n element : Nat) :
    Nat → Option Entry := fun i =>
  if i = placeStartIndex sz q index n element then
    (placeBase sz q index n element i).map fun s =>
      { s with
        span_end := (placedEntry sz q index n element).span_end,
        num_entries_in_span := (placedEntry sz q index n element).num_entries_in_span,
        total_span_size := (placedEntry sz q index n element).total_span_size }
  else placeBase sz q index n element i

/-- The slot contents after `SequencedQueue::PlaceNewEntry`: the new entry is
written at `index`, then the head entry of its span receives the combined
`span_end` / count / size and the tail entry of its span receives the combined
`span_start` / count / size, in that order (matching the source's two pointer
writes). -/
def placeFun (sz : Nat → Nat) (q : SequencedQueue) (index n element : Nat) :
    Nat → Option Entry := fun i =>
  if i = placeEndIndex sz q index n element then
    (placeMid sz q index n element i).map fun s =>
      { s with
        span_start := (placedEntry sz q index n element).span_start,
        num_entries_in_span := (placedEntry sz q index n element).num_entries_in_span,
        total_span_size := (placedEntry sz q index n element).total_span_size }
  else placeMid sz q index n element i

/-- Mirrors `SequencedQueue::PlaceNewEntry(index, n, element)`: updates the
slots via `placeFun` and increments `num_entries_`. -/
def placeNewEntry (sz : Nat → Nat) (q : SequencedQueue) (index n element : Nat) :
    SequencedQueue :=
  { q with
    entry := placeFun sz q index n element,
    num_entries := q.num_entries + 1 }

/-- Mirrors `SequencedQueue::Push(n, element)`.  `none` models `return false`
with the queue unchanged; `some q'` models `return true` with the mutated
queue.  The `new_limit == 0` test is the source's unsigned wraparound check,
made explicit here with `% 2^64`. -/
def push (sz : Nat → Nat) (q : SequencedQueue) (n element : Nat) :
    Option SequencedQueue :=
  if n < q.base_sequence_number ∨
      getMaxSequenceGap < n - q.base_sequence_number then none
  else
    let index := n - q.base_sequence_number
    match q.final_sequence_length with
    | some _ =>
      if q.len ≤ index ∨ (q.entry index).isSome then none
      else some (placeNewEntry sz q index n element)
    | none =>
      if index < q.len then
        if (q.entry index).isSome then none
        else some (placeNewEntry sz q index n element)
      else
        let new_limit := (n + 1) % twoPow64
        if new_limit = 0 then none
        else
          match reallocate q new_limit with
          | none => none
          | some q1 => some (placeNewEntry sz q1 index n element)

/-- The slot contents (still indexed relative to the pre-pop view) after
`SequencedQueue::Pop` has refreshed the accounting of the next queued entry:
when the view holds more than one slot and `entries_[1]` is occupied, the next
entry inherits the head's span bounds with count and size decremented, and
when the span extends past slot 1 its tail entry receives the same refreshed
count and size. -/
def popFun (sz : Nat → Nat) (q : SequencedQueue) (head : Entry) :
    Nat → Option Entry :=
  if 1 < q.len then
    match q.entry 1 with
    | some next =>
      let next1 : Entry :=
        { next with
          span_start := head.span_start,
          span_end := head.span_end,
          num_entries_in_span := head.num_entries_in_span - 1,
          total_span_size := head.total_span_size - sz head.element }
      let g : Nat → Option Entry := fun i =>
        if i = 1 then some next1 else q.entry i
      let tail_index := next1.span_end - q.base_sequence_number
      if 1 < tail_index then
        fun i =>
          if i = tail_index then
            (g i).map fun t =>
              { t with
                num_entries_in_span := next1.num_entries_in_span,
                total_span_size := next1.total_span_size }
          else g i
      else g
    | none => q.entry
  else q.entry

/-- Mirrors `SequencedQueue::Pop(element)`.  `none` models `return false`;
`some (v, q')` models `return true` with `element = v` and the mutated queue.
After the head slot is reset and the view advanced (`subspan(1)`), if no
occupied slots remain the view is realigned to the all-null front of
`storage_`, which preserves the slot count and leaves every slot vacant. -/
def pop (sz : Nat → Nat) (q : SequencedQueue) : Option (Nat × SequencedQueue) :=
  if q.len = 0 then none
  else
    match q.entry 0 with
    | none => none
    | some head =>
      let num_entries1 := q.num_entries - 1
      let f2 : Nat → Option Entry := fun i => popFun sz q head (i + 1)
      let f3 : Nat → Option Entry := if num_entries1 = 0 then fun _ => none else f2
      some (head.element,
        { len := q.len - 1, entry := f3,
          base_sequence_number := q.base_sequence_number + 1,
          num_entries := num_entries1,
          final_sequence_length := q.final_sequence_length })

/-- Mirrors `SequencedQueue::SetFinalSequenceLength(length)`.  The source sets
`final_sequence_length_` and then returns `Reallocate(length)`; after the two
guards that reallocation cannot fail, so `none` here coincides with
`return false` in the source. -/
def setFinalSequenceLength (q : SequencedQueue) (length : Nat) :
    Option SequencedQueue :=
  if q.final_sequence_length.isSome then none
  else if length < q.base_sequence_number + q.len then none
  else if getMaxSequenceGap < length - q.base_sequence_number then none
  else reallocate { q with final_sequence_length := some length } length

/-- A freshly constructed `SequencedQueue(initial_sequence_number)`: empty
storage, no occupied entries, no final sequence length. -/
def initialQueue (n : Nat) : SequencedQueue :=
  { len := 0, entry := fun _ => none, base_sequence_number := n,
    num_entries := 0, final_sequence_length := none }

/-- States reachable from a freshly constructed queue by any sequence of
(successful) `Push`, `Pop` and `SetFinalSequenceLength` operations.  All
sequence-number inputs are `uint64_t` values, hence bounded by `2^64`. -/
inductive Reach (sz : Nat → Nat) : SequencedQueue → Prop
  | init (n : Nat) (hn : n < twoPow64) : Reach sz (initialQueue n)
  | stepPush (q q' : SequencedQueue) (n element : Nat) (hn : n < twoPow64)
      (hq : Reach sz q) (hstep : push sz q n element = some q') : Reach sz q'
  | stepPop (q q' : SequencedQueue) (element : Nat)
      (hq : Reach sz q) (hstep : pop sz q = some (element, q')) : Reach sz q'
  | stepSetFinal (q q' : SequencedQueue) (length : Nat) (hl : length < twoPow64)
      (hq : Reach sz q) (hstep : setFinalSequenceLength q length = some q') :
      Reach sz q'

/-! Invariant infrastructure for the SequencedQueue claims. -/

/-- Number of occupied slots among `f 0, …, f (m-1)`. -/
def cntF (f : Nat → Option Entry) : Nat → Nat
  | 0 => 0
  | m + 1 => cntF f m + (if (f m).isSome then 1 else 0)

/-- Number of occupied slots of the queue's view: what `num_entries_` tracks. -/
def countOcc (q : SequencedQueue) : Nat := cntF q.entry q.len

/-- Size contribution of slot `i`: `ElementTraits::GetElementSize` of its
element when occupied, zero otherwise. -/
def elemSize (sz : Nat → Nat) (f : Nat → Option Entry) (i : Nat) : Nat :=
  match f i with
  | some e => sz e.element
  | none => 0

/-- Sum of the size contributions of the `c` slots `i, …, i + c - 1`. -/
def spanSum (sz : Nat → Nat) (f : Nat → Option Entry) (i : Nat) : Nat → Nat
  | 0 => 0
  | c + 1 => elemSize sz f i + spanSum sz f (i + 1) c

/-- Length of the contiguous occupied run starting at slot `i`, examining at
most `fuel` slots. -/
def runLen (f : Nat → Option Entry) (i : Nat) : Nat → Nat
  | 0 => 0
  | fuel + 1 => if (f i).isSome then runLen f (i + 1) fuel + 1 else 0

/-- Length of the contiguous occupied run at the front of the view: the number
of elements ready to pop. -/
def availLen (q : SequencedQueue) : Nat := runLen q.entry 0 q.len

/-- Slots `i` through `j` form a maximal contiguous run of occupied entries. -/
structure RunBounds (f : Nat → Option Entry) (i j : Nat) : Prop where
  le : i ≤ j
  occ : ∀ k, i ≤ k → k ≤ j → (f k).isSome = true
  left : i = 0 ∨ f (i - 1) = none
  right : f (j + 1) = none

/-- Accuracy requirement for the recorded `span_start` of a run beginning at
slot `i`: exact when the run begins past the front of the view; at the front
of the view it may lag behind (pops shift the view without refreshing it) but
never exceeds the base sequence number. -/
def startOK (base i : Nat) (e : Entry) : Prop :=
  if i = 0 then e.span_start ≤ base else e.span_start = base + i

/-- Accurate span metadata at the head and tail entries of the maximal run
occupying slots `i` through `j`, as maintained by `PlaceNewEntry` and `Pop`. -/
structure RunMeta (sz : Nat → Nat) (f : Nat → Option Entry) (base i j : Nat) :
    Prop where
  head : ∃ h, f i = some h ∧
    h.num_entries_in_span = j + 1 - i ∧
    h.total_span_size = spanSum sz f i (j + 1 - i) ∧
    h.span_end = base + j ∧ startOK base i h
  tail : ∃ t, f j = some t ∧
    t.num_entries_in_span = j + 1 - i ∧
    t.total_span_size = spanSum sz f i (j + 1 - i) ∧
    startOK base i t

/-- The well-formedness invariant of every reachable `SequencedQueue` state. -/
structure WF (sz : Nat → Nat) (q : SequencedQueue) : Prop where
  oob : ∀ i, q.len ≤ i → q.entry i = none
  count : q.num_entries = countOcc q
  len_le_gap : q.len ≤ getMaxSequenceGap
  base_len_lt : q.base_sequence_number + q.len < twoPow64
  final_eq : ∀ L, q.final_sequence_length = some L →
    q.base_sequence_number + q.len = L
  runs : ∀ i j, RunBounds q.entry i j →
    RunMeta sz q.entry q.base_sequence_number i j

/-! Basic lemmas about the counting and summing helpers. -/

theorem cntF_congr {f g : Nat → Option Entry} (m : Nat)
    (h : ∀ k, k < m → (f k).isSome = (g k).isSome) : cntF f m = cntF g m := by
  induction m with
  | zero => rfl
  | succ m ih =>
    simp only [cntF]
    rw [ih fun k hk => h k (Nat.lt_succ_of_lt hk), h m (Nat.lt_succ_self m)]

theorem cntF_update_some {f : Nat → Option Entry} {t : Nat} {v : Entry}
    (m : Nat) (hnone : f t = none) (ht : t < m) :
    cntF (fun i => if i = t then some v else f i) m = cntF f m + 1 := by
  have key : ∀ M, cntF (fun i => if i = t then some v else f i) M =
      cntF f M + (if t < M then 1 else 0) := by
    intro M
    induction M with
    | zero => simp [cntF]
    | succ M ihM =>
      simp only [cntF, ihM]
      by_cases hMt : M = t
      · subst hMt
        have e1 : (if M = M then some v else f M) = some v := if_pos rfl
        simp only [e1, hnone, Option.isSome_some, Option.isSome_none]
        rw [if_neg (Nat.lt_irrefl M), if_pos (Nat.lt_succ_self M)]
        simp
      · have e1 : (if M = t then some v else f M) = f M := if_neg hMt
        simp only [e1]
        by_cases h2 : t < M
        · rw [if_pos h2, if_pos (show t < M + 1 by omega)]
          omega
        · rw [if_neg h2, if_neg (show ¬ t < M + 1 by omega)]
          omega
  rw [key m, if_pos ht]

theorem cntF_all_none {f : Nat → Option Entry} (m : Nat)
    (h : ∀ k, k < m → f k = none) : cntF f m = 0 := by
  induction m with
  | zero => rfl
  | succ m ih =>
    simp only [cntF]
    rw [ih fun k hk => h k (Nat.lt_succ_of_lt hk), h m (Nat.lt_succ_self m)]
    rfl

theorem cntF_shift (f : Nat → Option Entry) (m : Nat) :
    cntF f (m + 1) =
      (if (f 0).isSome then 1 else 0) + cntF (fun i => f (i + 1)) m := by
  induction m with
  | zero => simp [cntF]
  | succ m ih =>
    have h1 : cntF f (m + 1 + 1) = cntF f (m + 1) + (if (f (m + 1)).isSome then 1 else 0) := rfl
    rw [h1, ih]
    have h2 : cntF (fun i => f (i + 1)) (m + 1) =
        cntF (fun i => f (i + 1)) m + (if (f (m + 1)).isSome then 1 else 0) := rfl
    rw [h2]
    omega

theorem spanSum_congr {sz : Nat → Nat} {f g : Nat → Option Entry} {i : Nat}
    (c : Nat) (h : ∀ k, i ≤ k → k < i + c → f k = g k) :
    spanSum sz f i c = spanSum sz g i c := by
  induction c generalizing i with
  | zero => rfl
  | succ c ih =>
    simp only [spanSum]
    rw [ih fun k hk1 hk2 => h k (by omega) (by omega)]
    have : f i = g i := h i (Nat.le_refl i) (by omega)
    simp [elemSize, this]

theorem spanSum_split (sz : Nat → Nat) (f : Nat → Option Entry) (i a b : Nat) :
    spanSum sz f i (a + b) = spanSum sz f i a + spanSum sz f (i + a) b := by
  induction a generalizing i with
  | zero => simp [spanSum]
  | succ a ih =>
    have h1 : a + 1 + b = (a + b) + 1 := by omega
    simp only [spanSum, h1]
    rw [ih (i + 1)]
    have h2 : i + 1 + a = i + (a + 1) := by omega
    rw [h2]
    omega

theorem spanSum_one (sz : Nat → Nat) (f : Nat → Option Entry) (i : Nat) :
    spanSum sz f i 1 = elemSize sz f i := by
  simp [spanSum]

/-! Lemmas about contiguous runs. -/

theorem runLen_le (f : Nat → Option Entry) (i fuel : Nat) :
    runLen f i fuel ≤ fuel := by
  induction fuel generalizing i with
  | zero => exact Nat.le_refl 0
  | succ fuel ih =>
    simp only [runLen]
    split
    · exact Nat.succ_le_succ (ih (i + 1))
    · exact Nat.zero_le _

theorem runLen_occ (f : Nat → Option Entry) (i fuel : Nat) :
    ∀ k, k < runLen f i fuel → (f (i + k)).isSome = true := by
  induction fuel generalizing i with
  | zero => intro k hk; simp [runLen] at hk
  | succ fuel ih =>
    intro k hk
    simp only [runLen] at hk
    by_cases h : (f i).isSome = true
    · rw [if_pos h] at hk
      cases k with
      | zero => simpa using h
      | succ k =>
        have := ih (i + 1) k (by omega)
        have harr : i + 1 + k = i + (k + 1) := by omega
        rwa [harr] at this
    · rw [if_neg h] at hk
      omega

theorem runLen_stop (f : Nat → Option Entry) (i fuel : Nat)
    (h : runLen f i fuel < fuel) :
    (f (i + runLen f i fuel)).isSome = false := by
  induction fuel generalizing i with
  | zero => omega
  | succ fuel ih =>
    simp only [runLen] at h ⊢
    by_cases hi : (f i).isSome = true
    · rw [if_pos hi] at h ⊢
      have := ih (i + 1) (by omega)
      have harr : i + 1 + runLen f (i + 1) fuel = i + (runLen f (i + 1) fuel + 1) := by
        omega
      rwa [harr] at this
    · rw [if_neg hi] at h ⊢
      simpa using hi

theorem run_start_exists (f : Nat → Option Entry) (k : Nat)
    (hk : (f k).isSome = true) :
    ∃ i, i ≤ k ∧ (∀ m, i ≤ m → m ≤ k → (f m).isSome = true) ∧
      (i = 0 ∨ f (i - 1) = none) := by
  induction k with
  | zero =>
    exact ⟨0, Nat.le_refl 0, fun m h1 h2 => by
      have : m = 0 := by omega
      rwa [this], Or.inl rfl⟩
  | succ k ih =>
    by_cases hprev : (f k).isSome = true
    · obtain ⟨i, hi1, hi2, hi3⟩ := ih hprev
      refine ⟨i, by omega, fun m h1 h2 => ?_, hi3⟩
      rcases Nat.lt_succ_iff_lt_or_eq.mp (Nat.lt_succ_of_le h2) with h | h
      · exact hi2 m h1 (by omega)
      · rwa [h]
    · refine ⟨k + 1, Nat.le_refl _, fun m h1 h2 => ?_, Or.inr ?_⟩
      · have : m = k + 1 := by omega
        rwa [this]
      · simp only [Nat.add_sub_cancel]
        exact Option.not_isSome_iff_eq_none.mp (by simpa using hprev)

theorem run_end_exists_aux (f : Nat → Option Entry) (L : Nat)
    (hoob : ∀ i, L ≤ i → f i = none) :
    ∀ d k, L - k ≤ d → (f k).isSome = true →
      ∃ j, k ≤ j ∧ (∀ m, k ≤ m → m ≤ j → (f m).isSome = true) ∧
        f (j + 1) = none := by
  intro d
  induction d with
  | zero =>
    intro k hd hk
    have : L ≤ k := by omega
    rw [hoob k this] at hk
    simp at hk
  | succ d ih =>
    intro k hd hk
    have hkL : k < L := by
      by_contra h
      rw [hoob k (by omega)] at hk
      simp at hk
    by_cases hnext : (f (k + 1)).isSome = true
    · obtain ⟨j, hj1, hj2, hj3⟩ := ih (k + 1) (by omega) hnext
      refine ⟨j, by omega, fun m h1 h2 => ?_, hj3⟩
      rcases Nat.eq_or_lt_of_le h1 with h | h
      · rwa [← h]
      · exact hj2 m (by omega) h2
    · refine ⟨k, Nat.le_refl k, fun m h1 h2 => ?_, ?_⟩
      · have : m = k := by omega
        rwa [this]
      · exact Option.not_isSome_iff_eq_none.mp (by simpa using hnext)

theorem run_exists (f : Nat → Option Entry) (L k : Nat)
    (hoob : ∀ i, L ≤ i → f i = none) (hk : (f k).isSome = true) :
    ∃ i j, RunBounds f i j ∧ i ≤ k ∧ k ≤ j := by
  obtain ⟨i, hi1, hi2, hi3⟩ := run_start_exists f k hk
  obtain ⟨j, hj1, hj2, hj3⟩ := run_end_exists_aux f L hoob (L - k) k (Nat.le_refl _) hk
  refine ⟨i, j, ⟨by omega, fun m h1 h2 => ?_, hi3, hj3⟩, hi1, hj1⟩
  rcases Nat.le_total m k with h | h
  · exact hi2 m h1 h
  · exact hj2 m h h2

theorem run_unique {f : Nat → Option Entry} {i j i' j' k : Nat}
    (h1 : RunBounds f i j) (h2 : RunBounds f i' j')
    (hk1 : i ≤ k) (hk2 : k ≤ j) (hk3 : i' ≤ k) (hk4 : k ≤ j') :
    i = i' ∧ j = j' := by
  constructor
  · rcases Nat.lt_trichotomy i i' with h | h | h
    · exfalso
      have hocc : (f (i' - 1)).isSome = true := h1.occ (i' - 1) (by omega) (by omega)
      rcases h2.left with h0 | h0
      · omega
      · rw [h0] at hocc; simp at hocc
    · exact h
    · exfalso
      have hocc : (f (i - 1)).isSome = true := h2.occ (i - 1) (by omega) (by omega)
      rcases h1.left with h0 | h0
      · omega
      · rw [h0] at hocc; simp at hocc
  · rcases Nat.lt_trichotomy j j' with h | h | h
    · exfalso
      have hocc : (f (j + 1)).isSome = true := h2.occ (j + 1) (by omega) (by omega)
      rw [h1.right] at hocc; simp at hocc
    · exact h
    · exfalso
      have hocc : (f (j' + 1)).isSome = true := h1.occ (j' + 1) (by omega) (by omega)
      rw [h2.right] at hocc; simp at hocc

theorem runBounds_congr {f g : Nat → Option Entry} {i j : Nat}
    (hagree : ∀ k, i - 1 ≤ k → k ≤ j + 1 → f k = g k)
    (h : RunBounds f i j) : RunBounds g i j := by
  have hle := h.le
  refine ⟨h.le, fun k h1 h2 => ?_, ?_, ?_⟩
  · rw [← hagree k (by omega) (by omega)]
    exact h.occ k h1 h2
  · rcases h.left with h0 | h0
    · exact Or.inl h0
    · exact Or.inr (by rw [← hagree (i - 1) (by omega) (by omega)]; exact h0)
  · rw [← hagree (j + 1) (by omega) (by omega)]
    exact h.right

theorem runMeta_congr {sz : Nat → Nat} {f g : Nat → Option Entry}
    {base i j : Nat} (hij : i ≤ j)
    (hagree : ∀ k, i - 1 ≤ k → k ≤ j + 1 → f k = g k)
    (h : RunMeta sz f base i j) : RunMeta sz g base i j := by
  have hsum : spanSum sz f i (j + 1 - i) = spanSum sz g i (j + 1 - i) :=
    spanSum_congr _ fun k h1 h2 => hagree k (by omega) (by omega)
  obtain ⟨hh, hh1, hh2, hh3, hh4, hh5⟩ := h.head
  obtain ⟨tt, tt1, tt2, tt3, tt4⟩ := h.tail
  constructor
  · exact ⟨hh, by rw [← hagree i (by omega) (by omega)]; exact hh1,
      hh2, by rw [← hsum]; exact hh3, hh4, hh5⟩
  · exact ⟨tt, by rw [← hagree j (by omega) (by omega)]; exact tt1,
      tt2, by rw [← hsum]; exact tt3, tt4⟩

/-- Assembly step for the `PlaceNewEntry` preservation proof: if the slots are
rewritten only inside one merged run `[iL, jR]` (the union of the new entry's
slot and its adjacent runs) with accurate head and tail metadata, then every
maximal run of the new state has accurate metadata, the occupied count grows
by one, and out-of-view slots stay vacant. -/
theorem runs_update (sz : Nat → Nat) (q : SequencedQueue)
    (hwf : WF sz q) (f' : Nat → Option Entry) (index iL jR : Nat)
    (hiL : iL ≤ index) (hjR : index ≤ jR) (hjlen : jR < q.len)
    (hempty : q.entry index = none)
    (hocc : ∀ k, iL ≤ k → k ≤ jR → (f' k).isSome = true)
    (hoccq : ∀ k, iL ≤ k → k ≤ jR → k ≠ index → (q.entry k).isSome = true)
    (hleft : iL = 0 ∨ q.entry (iL - 1) = none)
    (hright : q.entry (jR + 1) = none)
    (hsame : ∀ k, k ≠ index → k ≠ iL → k ≠ jR → f' k = q.entry k)
    (hhead : ∃ h, f' iL = some h ∧
      h.num_entries_in_span = jR + 1 - iL ∧
      h.total_span_size = spanSum sz f' iL (jR + 1 - iL) ∧
      h.span_end = q.base_sequence_number + jR ∧
      startOK q.base_sequence_number iL h)
    (htail : ∃ t, f' jR = some t ∧
      t.num_entries_in_span = jR + 1 - iL ∧
      t.total_span_size = spanSum sz f' iL (jR + 1 - iL) ∧
      startOK q.base_sequence_number iL t) :
    (∀ i j, RunBounds f' i j → RunMeta sz f' q.base_sequence_number i j) ∧
    cntF f' q.len = cntF q.entry q.len + 1 ∧
    (∀ i, q.len ≤ i → f' i = none) := by
  -- occupancy of the new state, pointwise
  have hpt : ∀ k, k ≠ index → (f' k).isSome = (q.entry k).isSome := by
    intro k hk
    by_cases hkl : k = iL
    · subst hkl
      rw [hocc k (Nat.le_refl _) (by omega) , hoccq k (Nat.le_refl _) (by omega) hk]
    · by_cases hkr : k = jR
      · subst hkr
        rw [hocc k (by omega) (Nat.le_refl _), hoccq k (by omega) (Nat.le_refl _) hk]
      · rw [hsame k hk hkl hkr]
  have hoob' : ∀ i, q.len ≤ i → f' i = none := by
    intro i hi
    have h1 : i ≠ index := by omega
    have h2 : i ≠ iL := by omega
    have h3 : i ≠ jR := by omega
    rw [hsame i h1 h2 h3]
    exact hwf.oob i hi
  -- the occupied count grows by exactly one
  obtain ⟨eI, heI⟩ := Option.isSome_iff_exists.mp (hocc index hiL hjR)
  have hcnt : cntF f' q.len = cntF q.entry q.len + 1 := by
    have e1 : cntF f' q.len =
        cntF (fun i => if i = index then some eI else q.entry i) q.len := by
      apply cntF_congr
      intro k hk
      by_cases hki : k = index
      · subst hki
        rw [heI, if_pos rfl]
      · rw [if_neg hki, hpt k hki]
    rw [e1]
    exact cntF_update_some q.len hempty (by omega)
  refine ⟨?_, hcnt, hoob'⟩
  -- the merged run is a maximal run of the new state
  have hrunM : RunBounds f' iL jR := by
    refine ⟨by omega, hocc, ?_, ?_⟩
    · by_cases h0 : iL = 0
      · exact Or.inl h0
      · refine Or.inr ?_
        have h1 : iL - 1 ≠ index := by omega
        have h2 : iL - 1 ≠ iL := by omega
        have h3 : iL - 1 ≠ jR := by omega
        rw [hsame _ h1 h2 h3]
        rcases hleft with h | h
        · omega
        · exact h
    · have h1 : jR + 1 ≠ index := by omega
      have h2 : jR + 1 ≠ iL := by omega
      have h3 : jR + 1 ≠ jR := by omega
      rw [hsame _ h1 h2 h3]
      exact hright
  intro i j hb
  by_cases hin : i ≤ index ∧ index ≤ j
  · -- the run containing the new slot is exactly the merged run
    obtain ⟨hij1, hij2⟩ :=
      run_unique hb hrunM hin.1 hin.2 hiL hjR
    subst hij1
    subst hij2
    exact ⟨hhead, htail⟩
  · -- any other run is untouched: transfer its metadata from the old state
    have hble := hb.le
    have hout : index < i ∨ j < index := by omega
    have hiL_out : ¬ (i ≤ iL ∧ iL ≤ j) := by
      rintro ⟨ha, hc⟩
      rcases hout with h | h
      · omega
      · have hocc1 : (f' (j + 1)).isSome = true := hocc (j + 1) (by omega) (by omega)
        rw [hb.right] at hocc1
        simp at hocc1
    have hjR_out : ¬ (i ≤ jR ∧ jR ≤ j) := by
      rintro ⟨ha, hc⟩
      rcases hout with h | h
      · have hi0 : i ≠ 0 := by omega
        have hocc1 : (f' (i - 1)).isSome = true := hocc (i - 1) (by omega) (by omega)
        rcases hb.left with h0 | h0
        · omega
        · rw [h0] at hocc1
          simp at hocc1
      · omega
    have hagree : ∀ k, i - 1 ≤ k → k ≤ j + 1 → f' k = q.entry k := by
      intro k hk1 hk2
      by_cases hki : k = index
      · subst hki
        -- the new slot can only border this run, where both states are vacant
        have hkb : k = i - 1 ∨ k = j + 1 := by omega
        rw [hempty]
        rcases hkb with h | h
        · have hi0 : i ≠ 0 := by omega
          rcases hb.left with h0 | h0
          · omega
          · rw [h]
            exact h0
        · rw [h]
          exact hb.right
      · by_cases hkl : k = iL
        · exfalso
          subst hkl
          have hkb : k = i - 1 ∨ k = j + 1 := by omega
          have hocc1 : (f' k).isSome = true := hocc k (Nat.le_refl _) (by omega)
          rcases hkb with h | h
          · have hi0 : i ≠ 0 := by omega
            rcases hb.left with h0 | h0
            · omega
            · rw [h] at hocc1
              rw [h0] at hocc1
              simp at hocc1
          · rw [h] at hocc1
            rw [hb.right] at hocc1
            simp at hocc1
        · by_cases hkr : k = jR
          · exfalso
            subst hkr
            have hkb : k = i - 1 ∨ k = j + 1 := by omega
            have hocc1 : (f' k).isSome = true := hocc k (by omega) (Nat.le_refl _)
            rcases hkb with h | h
            · have hi0 : i ≠ 0 := by omega
              rcases hb.left with h0 | h0
              · omega
              · rw [h] at hocc1
                rw [h0] at hocc1
                simp at hocc1
            · rw [h] at hocc1
              rw [hb.right] at hocc1
              simp at hocc1
          · exact hsame k hki hkl hkr
    have hbq : RunBounds q.entry i j := runBounds_congr hagree hb
    exact runMeta_congr hb.le (fun k h1 h2 => (hagree k h1 h2).symm)
      (hwf.runs i j hbq)

/-! Pointwise computation lemmas for `placedEntry` and `placeFun`. -/

theorem entry_update_self_end (e : Entry) :
    ({ e with
        span_end := e.span_end,
        num_entries_in_span := e.num_entries_in_span,
        total_span_size := e.total_span_size } : Entry) = e := rfl

theorem entry_update_self_start (e : Entry) :
    ({ e with
        span_start := e.span_start,
        num_entries_in_span := e.num_entries_in_span,
        total_span_size := e.total_span_size } : Entry) = e := rfl

theorem spanSum_congr_elem {sz : Nat → Nat} {f g : Nat → Option Entry} {i : Nat}
    (c : Nat) (h : ∀ k, i ≤ k → k < i + c → elemSize sz f k = elemSize sz g k) :
    spanSum sz f i c = spanSum sz g i c := by
  induction c generalizing i with
  | zero => rfl
  | succ c ih =>
    simp only [spanSum]
    rw [ih fun k hk1 hk2 => h k (by omega) (by omega),
      h i (Nat.le_refl i) (by omega)]

theorem placeFun_other (sz : Nat → Nat) (q : SequencedQueue)
    (index n element i : Nat) (h1 : i ≠ index)
    (h2 : i ≠ placeStartIndex sz q index n element)
    (h3 : i ≠ placeEndIndex sz q index n element) :
    placeFun sz q index n element i = q.entry i := by
  unfold placeFun placeMid placeBase
  rw [if_neg h3, if_neg h2, if_neg h1]

theorem spanJoinLeft_isolated (q : SequencedQueue) (index n : Nat) (e0 : Entry)
    (h : index = 0 ∨ q.entry (index - 1) = none) :
    spanJoinLeft q index n e0 = { e0 with span_start := n } := by
  unfold spanJoinLeft
  have c1 : index = 0 ∨ (q.entry (index - 1)).isNone = true := by
    rcases h with h | h
    · exact Or.inl h
    · exact Or.inr (by simp [h])
  rw [if_pos c1]

theorem spanJoinLeft_joined (q : SequencedQueue) (index n : Nat) (e0 left : Entry)
    (h : q.entry (index - 1) = some left) (h0 : index ≠ 0) :
    spanJoinLeft q index n e0 =
      { e0 with
        span_start := left.span_start,
        num_entries_in_span := e0.num_entries_in_span + left.num_entries_in_span,
        total_span_size := e0.total_span_size + left.total_span_size } := by
  unfold spanJoinLeft
  have c1 : ¬ (index = 0 ∨ (q.entry (index - 1)).isNone = true) := by
    simp [h, h0]
  rw [if_neg c1, h]

theorem spanJoinRight_isolated (q : SequencedQueue) (index n : Nat) (e1 : Entry)
    (h : index = q.len - 1 ∨ q.entry (index + 1) = none) :
    spanJoinRight q index n e1 = { e1 with span_end := n } := by
  unfold spanJoinRight
  have c1 : index = q.len - 1 ∨ (q.entry (index + 1)).isNone = true := by
    rcases h with h | h
    · exact Or.inl h
    · exact Or.inr (by simp [h])
  rw [if_pos c1]

theorem spanJoinRight_joined (q : SequencedQueue) (index n : Nat) (e1 right : Entry)
    (h : q.entry (index + 1) = some right) (h0 : index ≠ q.len - 1) :
    spanJoinRight q index n e1 =
      { e1 with
        span_end := right.span_end,
        num_entries_in_span := e1.num_entries_in_span + right.num_entries_in_span,
        total_span_size := e1.total_span_size + right.total_span_size } := by
  unfold spanJoinRight
  have c1 : ¬ (index = q.len - 1 ∨ (q.entry (index + 1)).isNone = true) := by
    simp [h, h0]
  rw [if_neg c1, h]

theorem placedEntry_case1 (sz : Nat → Nat) (q : SequencedQueue)
    (index n element : Nat)
    (hL : index = 0 ∨ q.entry (index - 1) = none)
    (hR : index = q.len - 1 ∨ q.entry (index + 1) = none) :
    placedEntry sz q index n element =
      { element := element, num_entries_in_span := 1,
        total_span_size := sz element, span_start := n, span_end := n } := by
  unfold placedEntry
  rw [spanJoinLeft_isolated q index n _ hL, spanJoinRight_isolated q index n _ hR]

theorem placedEntry_case2 (sz : Nat → Nat) (q : SequencedQueue)
    (index n element : Nat) (left : Entry)
    (hL : q.entry (index - 1) = some left) (h0 : index ≠ 0)
    (hR : index = q.len - 1 ∨ q.entry (index + 1) = none) :
    placedEntry sz q index n element =
      { element := element,
        num_entries_in_span := 1 + left.num_entries_in_span,
        total_span_size := sz element + left.total_span_size,
        span_start := left.span_start, span_end := n } := by
  unfold placedEntry
  rw [spanJoinLeft_joined q index n _ left hL h0,
    spanJoinRight_isolated q index n _ hR]

theorem placedEntry_case3 (sz : Nat → Nat) (q : SequencedQueue)
    (index n element : Nat) (right : Entry)
    (hL : index = 0 ∨ q.entry (index - 1) = none)
    (hR : q.entry (index + 1) = some right) (h1 : index ≠ q.len - 1) :
    placedEntry sz q index n element =
      { element := element,
        num_entries_in_span := 1 + right.num_entries_in_span,
        total_span_size := sz element + right.total_span_size,
        span_start := n, span_end := right.span_end } := by
  unfold placedEntry
  rw [spanJoinLeft_isolated q index n _ hL,
    spanJoinRight_joined q index n _ right hR h1]

theorem placedEntry_case4 (sz : Nat → Nat) (q : SequencedQueue)
    (index n element : Nat) (left right : Entry)
    (hL : q.entry (index - 1) = some left) (h0 : index ≠ 0)
    (hR : q.entry (index + 1) = some right) (h1 : index ≠ q.len - 1) :
    placedEntry sz q index n element =
      { element := element,
        num_entries_in_span := 1 + left.num_entries_in_span + right.num_entries_in_span,
        total_span_size := sz element + left.total_span_size + right.total_span_size,
        span_start := left.span_start, span_end := right.span_end } := by
  unfold placedEntry
  rw [spanJoinLeft_joined q index n _ left hL h0,
    spanJoinRight_joined q index n _ right hR h1]

theorem occ_lt_len {q : SequencedQueue} {k : Nat}
    (hoob : ∀ i, q.len ≤ i → q.entry i = none)
    (h : (q.entry k).isSome = true) : k < q.len := by
  by_contra hk
  rw [hoob k (by omega)] at h
  simp at h

/-- The maximal run ending exactly at `index - 1`, when that slot is occupied
and slot `index` is vacant. -/
theorem left_run_exists {q : SequencedQueue} {index : Nat}
    (hoob : ∀ i, q.len ≤ i → q.entry i = none)
    (hemp : q.entry index = none) (_h0 : index ≠ 0)
    (hsome : (q.entry (index - 1)).isSome = true) :
    ∃ a, RunBounds q.entry a (index - 1) := by
  obtain ⟨i, j, hrun, hik, hkj⟩ := run_exists q.entry q.len (index - 1) hoob hsome
  have hj : j = index - 1 := by
    by_contra h
    have hocc := hrun.occ index (by omega) (by omega)
    rw [hemp] at hocc
    simp at hocc
  exact ⟨i, hj ▸ hrun⟩

/-- The maximal run starting exactly at `index + 1`, when that slot is
occupied and slot `index` is vacant. -/
theorem right_run_exists {q : SequencedQueue} {index : Nat}
    (hoob : ∀ i, q.len ≤ i → q.entry i = none)
    (hemp : q.entry index = none)
    (hsome : (q.entry (index + 1)).isSome = true) :
    ∃ d, RunBounds q.entry (index + 1) d := by
  obtain ⟨i, j, hrun, hik, hkj⟩ := run_exists q.entry q.len (index + 1) hoob hsome
  have hi : i = index + 1 := by
    by_contra h
    have hocc := hrun.occ index (by omega) (by omega)
    rw [hemp] at hocc
    simp at hocc
  exact ⟨j, hi ▸ hrun⟩

/-- Case 1 of `PlaceNewEntry`: the new entry stands alone. -/
theorem wf_place_case1 (sz : Nat → Nat) (q : SequencedQueue)
    (index n element : Nat) (hwf : WF sz q)
    (hidx : index < q.len) (hemp : q.entry index = none)
    (hn : n = q.base_sequence_number + index)
    (hL : index = 0 ∨ q.entry (index - 1) = none)
    (hR : q.entry (index + 1) = none) :
    (∀ i j, RunBounds (placeFun sz q index n element) i j →
      RunMeta sz (placeFun sz q index n element) q.base_sequence_number i j) ∧
    cntF (placeFun sz q index n element) q.len = cntF q.entry q.len + 1 ∧
    (∀ i, q.len ≤ i → placeFun sz q index n element i = none) := by
  have hE := placedEntry_case1 sz q index n element hL (Or.inr hR)
  have hsi : placeStartIndex sz q index n element = index := by
    unfold placeStartIndex
    rw [hE]
    dsimp only
    by_cases h0 : index = 0
    · rw [if_pos (by omega)]
      omega
    · rw [if_neg (by omega)]
      omega
  have hei : placeEndIndex sz q index n element = index := by
    unfold placeEndIndex
    rw [hE]
    dsimp only
    omega
  have hfI : placeFun sz q index n element index =
      some { element := element,
             num_entries_in_span := 1,
             total_span_size := sz element,
             span_start := n,
             span_end := n } := by
    unfold placeFun placeMid placeBase
    rw [hsi, hei, hE]
    simp
  have hother : ∀ k, k ≠ index → placeFun sz q index n element k = q.entry k := by
    intro k hk
    exact placeFun_other sz q index n element k hk
      (by rw [hsi]; exact hk) (by rw [hei]; exact hk)
  apply runs_update sz q hwf _ index index index (Nat.le_refl _) (Nat.le_refl _)
    hidx hemp
  · intro k h1 h2
    have hk : k = index := by omega
    subst hk
    rw [hfI]
    rfl
  · intro k h1 h2 h3
    omega
  · exact hL
  · exact hR
  · intro k h1 _ _
    exact hother k h1
  · refine ⟨_, hfI, by simp, ?_, by dsimp only; omega, ?_⟩
    · dsimp only
      have h1 : index + 1 - index = 1 := by omega
      rw [h1, spanSum_one]
      unfold elemSize
      rw [hfI]
    · unfold startOK
      by_cases h0 : index = 0
      · rw [if_pos h0]
        dsimp only
        omega
      · rw [if_neg h0]
        dsimp only
        omega
  · refine ⟨_, hfI, by simp, ?_, ?_⟩
    · dsimp only
      have h1 : index + 1 - index = 1 := by omega
      rw [h1, spanSum_one]
      unfold elemSize
      rw [hfI]
    · unfold startOK
      by_cases h0 : index = 0
      · rw [if_pos h0]
        dsimp only
        omega
      · rw [if_neg h0]
        dsimp only
        omega

/-- Case 2 of `PlaceNewEntry`: the new entry extends the run ending at
`index - 1` and becomes its new tail. -/
theorem wf_place_case2 (sz : Nat → Nat) (q : SequencedQueue)
    (index n element : Nat) (hwf : WF sz q)
    (hidx : index < q.len) (hemp : q.entry index = none)
    (hn : n = q.base_sequence_number + index)
    (h0 : index ≠ 0) (hLs : (q.entry (index - 1)).isSome = true)
    (hR : q.entry (index + 1) = none) :
    (∀ i j, RunBounds (placeFun sz q index n element) i j →
      RunMeta sz (placeFun sz q index n element) q.base_sequence_number i j) ∧
    cntF (placeFun sz q index n element) q.len = cntF q.entry q.len + 1 ∧
    (∀ i, q.len ≤ i → placeFun sz q index n element i = none) := by
  obtain ⟨a, hrunL⟩ := left_run_exists hwf.oob hemp h0 hLs
  have hale := hrunL.le
  have halt : a < index := by omega
  obtain hmetaL := hwf.runs a (index - 1) hrunL
  obtain ⟨Hh, hH1, hH2, hH3, hH4, hH5⟩ := hmetaL.head
  obtain ⟨Lt, hT1, hT2, hT3, hT4⟩ := hmetaL.tail
  have hE := placedEntry_case2 sz q index n element Lt hT1 h0 (Or.inr hR)
  have hnum : Lt.num_entries_in_span = index - a := by omega
  have htot : Lt.total_span_size = spanSum sz q.entry a (index - a) := by
    have h1 : index - 1 + 1 - a = index - a := by omega
    rw [← h1]
    exact hT3
  have hsi : placeStartIndex sz q index n element = a := by
    unfold placeStartIndex
    rw [hE]
    dsimp only
    unfold startOK at hT4
    by_cases ha0 : a = 0
    · rw [if_pos ha0] at hT4
      rw [if_pos hT4]
      omega
    · rw [if_neg ha0] at hT4
      rw [hT4, if_neg (by omega)]
      omega
  have hei : placeEndIndex sz q index n element = index := by
    unfold placeEndIndex
    rw [hE]
    dsimp only
    omega
  have hfI : placeFun sz q index n element index =
      some { element := element,
             num_entries_in_span := 1 + Lt.num_entries_in_span,
             total_span_size := sz element + Lt.total_span_size,
             span_start := Lt.span_start,
             span_end := n } := by
    unfold placeFun placeMid placeBase
    rw [hei, hsi, hE]
    have hne : index ≠ a := by omega
    simp [hne]
  have hfa : placeFun sz q index n element a =
      some { Hh with
             num_entries_in_span := 1 + Lt.num_entries_in_span,
             total_span_size := sz element + Lt.total_span_size,
             span_end := n } := by
    unfold placeFun placeMid placeBase
    rw [hei, hsi, hE]
    have hne : a ≠ index := by omega
    simp [hne, hH1]
  have hother : ∀ k, k ≠ index → k ≠ a →
      placeFun sz q index n element k = q.entry k := by
    intro k h1 h2
    exact placeFun_other sz q index n element k h1
      (by rw [hsi]; exact h2) (by rw [hei]; exact h1)
  have hsum : spanSum sz (placeFun sz q index n element) a (index + 1 - a) =
      spanSum sz q.entry a (index - a) + sz element := by
    have hsplit : index + 1 - a = (index - a) + 1 := by omega
    rw [hsplit, spanSum_split sz _ a (index - a) 1, spanSum_one]
    congr 1
    · apply spanSum_congr_elem
      intro k hk1 hk2
      by_cases hka : k = a
      · subst hka
        unfold elemSize
        rw [hfa, hH1]
      · unfold elemSize
        rw [hother k (by omega) hka]
    · have hidx2 : a + (index - a) = index := by omega
      rw [hidx2]
      unfold elemSize
      rw [hfI]
  apply runs_update sz q hwf _ index a index (by omega) (Nat.le_refl _)
    hidx hemp
  · intro k h1 h2
    by_cases hk1 : k = index
    · subst hk1
      rw [hfI]
      rfl
    · by_cases hk2 : k = a
      · subst hk2
        rw [hfa]
        rfl
      · rw [hother k hk1 hk2]
        exact hrunL.occ k h1 (by omega)
  · intro k h1 h2 h3
    exact hrunL.occ k h1 (by omega)
  · exact hrunL.left
  · exact hR
  · intro k h1 h2 _
    exact hother k h1 h2
  · refine ⟨_, hfa, ?_, ?_, ?_, ?_⟩
    · dsimp only
      omega
    · dsimp only
      rw [hsum, htot]
      omega
    · dsimp only
      omega
    · unfold startOK at hH5 ⊢
      by_cases ha0 : a = 0
      · rw [if_pos ha0] at hH5 ⊢
        dsimp only
        exact hH5
      · rw [if_neg ha0] at hH5 ⊢
        dsimp only
        exact hH5
  · refine ⟨_, hfI, ?_, ?_, ?_⟩
    · dsimp only
      omega
    · dsimp only
      rw [hsum, htot]
      omega
    · unfold startOK at hT4 ⊢
      by_cases ha0 : a = 0
      · rw [if_pos ha0] at hT4 ⊢
        dsimp only
        exact hT4
      · rw [if_neg ha0] at hT4 ⊢
        dsimp only
        exact hT4

/-- Case 3 of `PlaceNewEntry`: the new entry extends the run starting at
`index + 1` and becomes its new head. -/
theorem wf_place_case3 (sz : Nat → Nat) (q : SequencedQueue)
    (index n element : Nat) (hwf : WF sz q)
    (hidx : index < q.len) (hemp : q.entry index = none)
    (hn : n = q.base_sequence_number + index)
    (hL : index = 0 ∨ q.entry (index - 1) = none)
    (hRs : (q.entry (index + 1)).isSome = true) :
    (∀ i j, RunBounds (placeFun sz q index n element) i j →
      RunMeta sz (placeFun sz q index n element) q.base_sequence_number i j) ∧
    cntF (placeFun sz q index n element) q.len = cntF q.entry q.len + 1 ∧
    (∀ i, q.len ≤ i → placeFun sz q index n element i = none) := by
  obtain ⟨d, hrunR⟩ := right_run_exists hwf.oob hemp hRs
  have hdle := hrunR.le
  have hdlen : d < q.len :=
    occ_lt_len hwf.oob (hrunR.occ d hdle (Nat.le_refl _))
  have h1len : index ≠ q.len - 1 := by omega
  obtain hmetaR := hwf.runs (index + 1) d hrunR
  obtain ⟨Rh, hRh1, hRh2, hRh3, hRh4, hRh5⟩ := hmetaR.head
  obtain ⟨Rt, hRt1, hRt2, hRt3, hRt4⟩ := hmetaR.tail
  have hE := placedEntry_case3 sz q index n element Rh hL hRh1 h1len
  have hRhss : Rh.span_start = q.base_sequence_number + (index + 1) := by
    unfold startOK at hRh5
    rw [if_neg (by omega)] at hRh5
    exact hRh5
  have hRtss : Rt.span_start = q.base_sequence_number + (index + 1) := by
    unfold startOK at hRt4
    rw [if_neg (by omega)] at hRt4
    exact hRt4
  have hnum : Rh.num_entries_in_span = d - index := by omega
  have htot : Rh.total_span_size = spanSum sz q.entry (index + 1) (d - index) := by
    have h1 : d + 1 - (index + 1) = d - index := by omega
    rw [← h1]
    exact hRh3
  have hsi : placeStartIndex sz q index n element = index := by
    unfold placeStartIndex
    rw [hE]
    dsimp only
    by_cases h0 : index = 0
    · rw [if_pos (by omega)]
      omega
    · rw [if_neg (by omega)]
      omega
  have hei : placeEndIndex sz q index n element = d := by
    unfold placeEndIndex
    rw [hE]
    dsimp only
    rw [hRh4]
    omega
  have hfI : placeFun sz q index n element index =
      some { element := element,
             num_entries_in_span := 1 + Rh.num_entries_in_span,
             total_span_size := sz element + Rh.total_span_size,
             span_start := n,
             span_end := Rh.span_end } := by
    unfold placeFun placeMid placeBase
    rw [hei, hsi, hE]
    have hne : index ≠ d := by omega
    simp [hne]
  have hfd : placeFun sz q index n element d =
      some { Rt with
             num_entries_in_span := 1 + Rh.num_entries_in_span,
             total_span_size := sz element + Rh.total_span_size,
             span_start := n } := by
    unfold placeFun placeMid placeBase
    rw [hei, hsi, hE]
    have hne : d ≠ index := by omega
    simp [hne, hRt1]
  have hother : ∀ k, k ≠ index → k ≠ d →
      placeFun sz q index n element k = q.entry k := by
    intro k h1 h2
    exact placeFun_other sz q index n element k h1
      (by rw [hsi]; exact h1) (by rw [hei]; exact h2)
  have hsum : spanSum sz (placeFun sz q index n element) index (d + 1 - index) =
      sz element + spanSum sz q.entry (index + 1) (d - index) := by
    have hsplit : d + 1 - index = 1 + (d - index) := by omega
    rw [hsplit, spanSum_split sz _ index 1 (d - index), spanSum_one]
    congr 1
    · unfold elemSize
      rw [hfI]
    · apply spanSum_congr_elem
      intro k hk1 hk2
      by_cases hkd : k = d
      · subst hkd
        unfold elemSize
        rw [hfd, hRt1]
      · unfold elemSize
        rw [hother k (by omega) hkd]
  apply runs_update sz q hwf _ index index d (Nat.le_refl _) (by omega)
    hdlen hemp
  · intro k h1 h2
    by_cases hk1 : k = index
    · subst hk1
      rw [hfI]
      rfl
    · by_cases hk2 : k = d
      · subst hk2
        rw [hfd]
        rfl
      · rw [hother k hk1 hk2]
        exact hrunR.occ k (by omega) (by omega)
  · intro k h1 h2 h3
    exact hrunR.occ k (by omega) h2
  · exact hL
  · exact hrunR.right
  · intro k h1 _ h3
    exact hother k h1 h3
  · refine ⟨_, hfI, ?_, ?_, ?_, ?_⟩
    · dsimp only
      omega
    · dsimp only
      rw [hsum, htot]
    · dsimp only
      omega
    · unfold startOK
      by_cases h0 : index = 0
      · rw [if_pos h0]
        dsimp only
        omega
      · rw [if_neg h0]
        dsimp only
        omega
  · refine ⟨_, hfd, ?_, ?_, ?_⟩
    · dsimp only
      omega
    · dsimp only
      rw [hsum, htot]
    · unfold startOK
      by_cases h0 : index = 0
      · rw [if_pos h0]
        dsimp only
        omega
      · rw [if_neg h0]
        dsimp only
        omega

/-- Case 4 of `PlaceNewEntry`: the new entry joins the run ending at
`index - 1` with the run starting at `index + 1`. -/
theorem wf_place_case4 (sz : Nat → Nat) (q : SequencedQueue)
    (index n element : Nat) (hwf : WF sz q)
    (hidx : index < q.len) (hemp : q.entry index = none)
    (hn : n = q.base_sequence_number + index)
    (h0 : index ≠ 0) (hLs : (q.entry (index - 1)).isSome = true)
    (hRs : (q.entry (index + 1)).isSome = true) :
    (∀ i j, RunBounds (placeFun sz q index n element) i j →
      RunMeta sz (placeFun sz q index n element) q.base_sequence_number i j) ∧
    cntF (placeFun sz q index n element) q.len = cntF q.entry q.len + 1 ∧
    (∀ i, q.len ≤ i → placeFun sz q index n element i = none) := by
  obtain ⟨a, hrunL⟩ := left_run_exists hwf.oob hemp h0 hLs
  have hale := hrunL.le
  have halt : a < index := by omega
  obtain hmetaL := hwf.runs a (index - 1) hrunL
  obtain ⟨Hh, hH1, hH2, hH3, hH4, hH5⟩ := hmetaL.head
  obtain ⟨Lt, hT1, hT2, hT3, hT4⟩ := hmetaL.tail
  obtain ⟨d, hrunR⟩ := right_run_exists hwf.oob hemp hRs
  have hdle := hrunR.le
  have hdlen : d < q.len :=
    occ_lt_len hwf.oob (hrunR.occ d hdle (Nat.le_refl _))
  have h1len : index ≠ q.len - 1 := by omega
  obtain hmetaR := hwf.runs (index + 1) d hrunR
  obtain ⟨Rh, hRh1, hRh2, hRh3, hRh4, hRh5⟩ := hmetaR.head
  obtain ⟨Rt, hRt1, hRt2, hRt3, hRt4⟩ := hmetaR.tail
  have hE := placedEntry_case4 sz q index n element Lt Rh hT1 h0 hRh1 h1len
  have hnumL : Lt.num_entries_in_span = index - a := by omega
  have htotL : Lt.total_span_size = spanSum sz q.entry a (index - a) := by
    have h1 : index - 1 + 1 - a = index - a := by omega
    rw [← h1]
    exact hT3
  have hnumR : Rh.num_entries_in_span = d - index := by omega
  have htotR : Rh.total_span_size = spanSum sz q.entry (index + 1) (d - index) := by
    have h1 : d + 1 - (index + 1) = d - index := by omega
    rw [← h1]
    exact hRh3
  have hsi : placeStartIndex sz q index n element = a := by
    unfold placeStartIndex
    rw [hE]
    dsimp only
    unfold startOK at hT4
    by_cases ha0 : a = 0
    · rw [if_pos ha0] at hT4
      rw [if_pos hT4]
      omega
    · rw [if_neg ha0] at hT4
      rw [hT4, if_neg (by omega)]
      omega
  have hei : placeEndIndex sz q index n element = d := by
    unfold placeEndIndex
    rw [hE]
    dsimp only
    rw [hRh4]
    omega
  have hfI : placeFun sz q index n element index =
      some { element := element,
             num_entries_in_span :=
               1 + Lt.num_entries_in_span + Rh.num_entries_in_span,
             total_span_size :=
               sz element + Lt.total_span_size + Rh.total_span_size,
             span_start := Lt.span_start,
             span_end := Rh.span_end } := by
    unfold placeFun placeMid placeBase
    rw [hei, hsi, hE]
    have hne1 : index ≠ d := by omega
    have hne2 : index ≠ a := by omega
    simp [hne1, hne2]
  have hfa : placeFun sz q index n element a =
      some { Hh with
             num_entries_in_span :=
               1 + Lt.num_entries_in_span + Rh.num_entries_in_span,
             total_span_size :=
               sz element + Lt.total_span_size + Rh.total_span_size,
             span_end := Rh.span_end } := by
    unfold placeFun placeMid placeBase
    rw [hei, hsi, hE]
    have hne1 : a ≠ d := by omega
    have hne2 : a ≠ index := by omega
    simp [hne1, hne2, hH1]
  have hfd : placeFun sz q index n element d =
      some { Rt with
             num_entries_in_span :=
               1 + Lt.num_entries_in_span + Rh.num_entries_in_span,
             total_span_size :=
               sz element + Lt.total_span_size + Rh.total_span_size,
             span_start := Lt.span_start } := by
    unfold placeFun placeMid placeBase
    rw [hei, hsi, hE]
    have hne1 : d ≠ a := by omega
    have hne2 : d ≠ index := by omega
    simp [hne1, hne2, hRt1]
  have hother : ∀ k, k ≠ index → k ≠ a → k ≠ d →
      placeFun sz q index n element k = q.entry k := by
    intro k h1 h2 h3
    exact placeFun_other sz q index n element k h1
      (by rw [hsi]; exact h2) (by rw [hei]; exact h3)
  have hsum : spanSum sz (placeFun sz q index n element) a (d + 1 - a) =
      spanSum sz q.entry a (index - a) + sz element +
        spanSum sz q.entry (index + 1) (d - index) := by
    have hsplit : d + 1 - a = (index - a) + (1 + (d - index)) := by omega
    rw [hsplit, spanSum_split sz _ a (index - a) (1 + (d - index))]
    have hmid : a + (index - a) = index := by omega
    rw [hmid, spanSum_split sz _ index 1 (d - index), spanSum_one]
    have e1 : spanSum sz (placeFun sz q index n element) a (index - a) =
        spanSum sz q.entry a (index - a) := by
      apply spanSum_congr_elem
      intro k hk1 hk2
      by_cases hka : k = a
      · subst hka
        unfold elemSize
        rw [hfa, hH1]
      · unfold elemSize
        rw [hother k (by omega) hka (by omega)]
    have e2 : elemSize sz (placeFun sz q index n element) index = sz element := by
      unfold elemSize
      rw [hfI]
    have e3 : spanSum sz (placeFun sz q index n element) (index + 1) (d - index) =
        spanSum sz q.entry (index + 1) (d - index) := by
      apply spanSum_congr_elem
      intro k hk1 hk2
      by_cases hkd : k = d
      · subst hkd
        unfold elemSize
        rw [hfd, hRt1]
      · unfold elemSize
        rw [hother k (by omega) (by omega) hkd]
    rw [e1, e2, e3]
    omega
  apply runs_update sz q hwf _ index a d (by omega) (by omega) hdlen hemp
  · intro k h1 h2
    by_cases hk1 : k = index
    · subst hk1
      rw [hfI]
      rfl
    · by_cases hk2 : k = a
      · subst hk2
        rw [hfa]
        rfl
      · by_cases hk3 : k = d
        · subst hk3
          rw [hfd]
          rfl
        · rw [hother k hk1 hk2 hk3]
          rcases Nat.lt_or_ge k index with h | h
          · exact hrunL.occ k h1 (by omega)
          · exact hrunR.occ k (by omega) (by omega)
  · intro k h1 h2 h3
    rcases Nat.lt_or_ge k index with h | h
    · exact hrunL.occ k h1 (by omega)
    · exact hrunR.occ k (by omega) (by omega)
  · exact hrunL.left
  · exact hrunR.right
  · intro k h1 h2 h3
    exact hother k h1 h2 h3
  · refine ⟨_, hfa, ?_, ?_, ?_, ?_⟩
    · dsimp only
      omega
    · dsimp only
      rw [hsum, htotL, htotR]
      omega
    · dsimp only
      rw [hRh4]
    · unfold startOK at hH5 ⊢
      by_cases ha0 : a = 0
      · rw [if_pos ha0] at hH5 ⊢
        dsimp only
        exact hH5
      · rw [if_neg ha0] at hH5 ⊢
        dsimp only
        exact hH5
  · refine ⟨_, hfd, ?_, ?_, ?_⟩
    · dsimp only
      omega
    · dsimp only
      rw [hsum, htotL, htotR]
      omega
    · unfold startOK at hT4 ⊢
      by_cases ha0 : a = 0
      · rw [if_pos ha0] at hT4 ⊢
        dsimp only
        exact hT4
      · rw [if_neg ha0] at hT4 ⊢
        dsimp only
        exact hT4

theorem cntF_ext (f : Nat → Option Entry) (m : Nat) :
    ∀ m', m ≤ m' → (∀ k, m ≤ k → k < m' → f k = none) → cntF f m' = cntF f m := by
  intro m'
  induction m' with
  | zero =>
    intro h _
    have h0 : m = 0 := by omega
    rw [h0]
  | succ m' ih =>
    intro h hnone
    by_cases hm : m = m' + 1
    · rw [hm]
    · have h1 : m ≤ m' := by omega
      have h2 : cntF f (m' + 1) = cntF f m' + (if (f m').isSome then 1 else 0) := rfl
      rw [h2, hnone m' h1 (by omega),
        ih h1 fun k hk1 hk2 => hnone k hk1 (by omega)]
      rfl

/-- `PlaceNewEntry` preserves the well-formedness invariant whenever its
source-asserted preconditions hold (in-view vacant slot, `n` the slot's
sequence number). -/
theorem wf_placeNewEntry (sz : Nat → Nat) (q : SequencedQueue)
    (index n element : Nat) (hwf : WF sz q)
    (hidx : index < q.len) (hemp : q.entry index = none)
    (hn : n = q.base_sequence_number + index) :
    WF sz (placeNewEntry sz q index n element) := by
  have hparts : (∀ i j, RunBounds (placeFun sz q index n element) i j →
      RunMeta sz (placeFun sz q index n element) q.base_sequence_number i j) ∧
      cntF (placeFun sz q index n element) q.len = cntF q.entry q.len + 1 ∧
      (∀ i, q.len ≤ i → placeFun sz q index n element i = none) := by
    by_cases hLs : (q.entry (index - 1)).isSome = true
    · have h0 : index ≠ 0 := by
        intro h
        subst h
        rw [show (0 : Nat) - 1 = 0 by rfl, hemp] at hLs
        simp at hLs
      by_cases hRs : (q.entry (index + 1)).isSome = true
      · exact wf_place_case4 sz q index n element hwf hidx hemp hn h0 hLs hRs
      · have hR : q.entry (index + 1) = none :=
          Option.not_isSome_iff_eq_none.mp (by simpa using hRs)
        exact wf_place_case2 sz q index n element hwf hidx hemp hn h0 hLs hR
    · have hL : index = 0 ∨ q.entry (index - 1) = none :=
        Or.inr (Option.not_isSome_iff_eq_none.mp (by simpa using hLs))
      by_cases hRs : (q.entry (index + 1)).isSome = true
      · exact wf_place_case3 sz q index n element hwf hidx hemp hn hL hRs
      · have hR : q.entry (index + 1) = none :=
          Option.not_isSome_iff_eq_none.mp (by simpa using hRs)
        exact wf_place_case1 sz q index n element hwf hidx hemp hn hL hR
  obtain ⟨hruns, hcnt, hoobP⟩ := hparts
  refine ⟨hoobP, ?_, hwf.len_le_gap, hwf.base_len_lt, hwf.final_eq, hruns⟩
  show q.num_entries + 1 = countOcc (placeNewEntry sz q index n element)
  have h1 := hwf.count
  unfold countOcc at h1 ⊢
  show q.num_entries + 1 = cntF (placeFun sz q index n element) q.len
  omega

/-- Characterization and invariant preservation for a successful
`Reallocate` that does not shrink the view. -/
theorem wf_reallocate (sz : Nat → Nat) (q : SequencedQueue) (s : Nat)
    (q' : SequencedQueue)
    (hoob : ∀ i, q.len ≤ i → q.entry i = none)
    (hcount : q.num_entries = countOcc q)
    (hruns : ∀ i j, RunBounds q.entry i j →
      RunMeta sz q.entry q.base_sequence_number i j)
    (hs : s < twoPow64)
    (hlen : q.len ≤ s - q.base_sequence_number)
    (hfin : ∀ L, q.final_sequence_length = some L →
      q.base_sequence_number + (s - q.base_sequence_number) = L)
    (h : reallocate q s = some q') :
    WF sz q' ∧ q'.entry = q.entry ∧
    q'.len = s - q.base_sequence_number ∧
    q'.base_sequence_number = q.base_sequence_number ∧
    q'.num_entries = q.num_entries ∧
    q'.final_sequence_length = q.final_sequence_length := by
  unfold reallocate at h
  dsimp only at h
  split at h
  · exact absurd h (by simp)
  · rename_i hge
    split at h
    · exact absurd h (by simp)
    · rename_i hgap
      have hq' := (Option.some.inj h).symm
      subst hq'
      have hent : (fun i => if i < s - q.base_sequence_number then
          (if i < q.len then q.entry i else none) else none) = q.entry := by
        funext i
        by_cases h1 : i < q.len
        · rw [if_pos (by omega), if_pos h1]
        · rw [hoob i (by omega)]
          by_cases h2 : i < s - q.base_sequence_number
          · rw [if_pos h2, if_neg h1]
          · rw [if_neg h2]
      refine ⟨⟨?_, ?_, by dsimp only; omega, ?_, hfin, ?_⟩, hent, rfl, rfl, rfl, rfl⟩
      · intro i hi
        dsimp only at hi
        show (fun i => if i < s - q.base_sequence_number then
          (if i < q.len then q.entry i else none) else none) i = none
        rw [hent]
        exact hoob i (by omega)
      · show q.num_entries = cntF (fun i => if i < s - q.base_sequence_number then
          (if i < q.len then q.entry i else none) else none) (s - q.base_sequence_number)
        rw [hent, cntF_ext q.entry q.len (s - q.base_sequence_number) hlen
          fun k hk1 hk2 => hoob k hk1]
        exact hcount
      · show q.base_sequence_number + (s - q.base_sequence_number) < twoPow64
        omega
      · intro i j hb
        show RunMeta sz (fun i => if i < s - q.base_sequence_number then
          (if i < q.len then q.entry i else none) else none) q.base_sequence_number i j
        rw [hent] at hb ⊢
        exact hruns i j hb

/-- A successful `Push` preserves the well-formedness invariant. -/
theorem wf_push (sz : Nat → Nat) (q q' : SequencedQueue) (n element : Nat)
    (hwf : WF sz q) (hn : n < twoPow64)
    (h : push sz q n element = some q') : WF sz q' := by
  unfold push at h
  split at h
  · exact absurd h (by simp)
  · rename_i hguard
    obtain ⟨hg1, hg2⟩ := not_or.mp hguard
    have hbase : q.base_sequence_number ≤ n := by omega
    have hnb : n = q.base_sequence_number + (n - q.base_sequence_number) := by
      omega
    dsimp only at h
    split at h
    · -- final sequence length is set
      split at h
      · exact absurd h (by simp)
      · rename_i hcond
        obtain ⟨h1, h2⟩ := not_or.mp hcond
        have hq' := (Option.some.inj h).symm
        subst hq'
        exact wf_placeNewEntry sz q _ n element hwf (by omega)
          (Option.not_isSome_iff_eq_none.mp (by simpa using h2)) hnb
    · -- no final sequence length
      rename_i hfq
      split at h
      · rename_i hlt
        split at h
        · exact absurd h (by simp)
        · rename_i h2
          have hq' := (Option.some.inj h).symm
          subst hq'
          exact wf_placeNewEntry sz q _ n element hwf hlt
            (Option.not_isSome_iff_eq_none.mp (by simpa using h2)) hnb
      · rename_i hge
        split at h
        · exact absurd h (by simp)
        · rename_i hnz
          have hne : n + 1 ≠ twoPow64 := by
            intro hc
            rw [← hc] at hnz
            simp [Nat.mod_self] at hnz
          have hlt : n + 1 < twoPow64 := by omega
          have hlim : (n + 1) % twoPow64 = n + 1 := Nat.mod_eq_of_lt hlt
          rw [hlim] at h
          split at h
          · exact absurd h (by simp)
          · rename_i q1 hre
            have hq' := (Option.some.inj h).symm
            subst hq'
            obtain ⟨hwf1, hent1, hlen1, hbase1, _, _⟩ :=
              wf_reallocate sz q (n + 1) q1 hwf.oob hwf.count hwf.runs (by omega)
                (by omega)
                (by intro L hL; rw [hfq] at hL; exact absurd hL (by simp))
                hre
            exact wf_placeNewEntry sz q1 _ n element hwf1
              (by omega) (by rw [hent1]; exact hwf.oob _ (by omega))
              (by omega)

theorem spanSum_shift_agree {sz : Nat → Nat} {f2 fq : Nat → Option Entry}
    {i : Nat} (c : Nat)
    (h : ∀ k, i ≤ k → k < i + c → f2 k = fq (k + 1)) :
    spanSum sz f2 i c = spanSum sz fq (i + 1) c := by
  induction c generalizing i with
  | zero => rfl
  | succ c ih =>
    simp only [spanSum]
    rw [ih fun k hk1 hk2 => h k (by omega) (by omega)]
    have e1 : elemSize sz f2 i = elemSize sz fq (i + 1) := by
      unfold elemSize
      rw [h i (Nat.le_refl i) (by omega)]
    rw [e1]

/-- After a pop, a maximal run of the advanced view that does not touch the
refreshed slots coincides with a run of the old view shifted by one slot, and
inherits its accurate metadata (the recorded absolute sequence numbers are
unchanged and remain accurate against the incremented base). -/
theorem runMeta_transfer_shift (sz : Nat → Nat) (q : SequencedQueue)
    (f2 : Nat → Option Entry) (hwf : WF sz q) (i j : Nat) (hi : 1 ≤ i)
    (hagree : ∀ k, i - 1 ≤ k → k ≤ j + 1 → f2 k = q.entry (k + 1))
    (hb : RunBounds f2 i j) :
    RunMeta sz f2 (q.base_sequence_number + 1) i j := by
  have hble := hb.le
  have hbq : RunBounds q.entry (i + 1) (j + 1) := by
    refine ⟨by omega, fun k h1 h2 => ?_, Or.inr ?_, ?_⟩
    · have e1 : q.entry k = f2 (k - 1) := by
        rw [hagree (k - 1) (by omega) (by omega)]
        have : k - 1 + 1 = k := by omega
        rw [this]
      rw [e1]
      exact hb.occ (k - 1) (by omega) (by omega)
    · have e1 : i + 1 - 1 = i := by omega
      have e2 : i - 1 + 1 = i := by omega
      rw [e1, ← e2, ← hagree (i - 1) (by omega) (by omega)]
      rcases hb.left with h0 | h0
      · omega
      · exact h0
    · rw [← hagree (j + 1) (by omega) (by omega)]
      exact hb.right
  obtain hm := hwf.runs (i + 1) (j + 1) hbq
  obtain ⟨H, hH1, hH2, hH3, hH4, hH5⟩ := hm.head
  obtain ⟨T, hT1, hT2, hT3, hT4⟩ := hm.tail
  have hsum : spanSum sz f2 i (j + 1 - i) =
      spanSum sz q.entry (i + 1) (j + 1 + 1 - (i + 1)) := by
    have e1 : j + 1 + 1 - (i + 1) = j + 1 - i := by omega
    rw [e1]
    exact spanSum_shift_agree (j + 1 - i)
      fun k hk1 hk2 => hagree k (by omega) (by omega)
  have hss : startOK q.base_sequence_number (i + 1) H → H.span_start =
      q.base_sequence_number + (i + 1) := by
    intro h
    unfold startOK at h
    rw [if_neg (by omega)] at h
    exact h
  have hssT : startOK q.base_sequence_number (i + 1) T → T.span_start =
      q.base_sequence_number + (i + 1) := by
    intro h
    unfold startOK at h
    rw [if_neg (by omega)] at h
    exact h
  constructor
  · refine ⟨H, ?_, by omega, ?_, by omega, ?_⟩
    · rw [hagree i (by omega) (by omega)]
      exact hH1
    · rw [hsum]
      exact hH3
    · unfold startOK
      rw [if_neg (by omega)]
      rw [hss hH5]
      omega
  · refine ⟨T, ?_, by omega, ?_, ?_⟩
    · rw [hagree j (by omega) (by omega)]
      exact hT1
    · rw [hsum]
      exact hT3
    · unfold startOK
      rw [if_neg (by omega)]
      rw [hssT hT4]
      omega

theorem cntF_pos (f : Nat → Option Entry) (m k : Nat) (hk : k < m)
    (h : (f k).isSome = true) : 1 ≤ cntF f m := by
  induction m with
  | zero => omega
  | succ m ih =>
    have e1 : cntF f (m + 1) = cntF f m + (if (f m).isSome then 1 else 0) := rfl
    rw [e1]
    by_cases hkm : k = m
    · subst hkm
      rw [h]
      simp
    · have := ih (by omega)
      omega

/-- A successful `Pop` preserves the well-formedness invariant. -/
theorem wf_pop (sz : Nat → Nat) (q q' : SequencedQueue) (v : Nat)
    (hwf : WF sz q) (h : pop sz q = some (v, q')) : WF sz q' := by
  unfold pop at h
  split at h
  · exact absurd h (by simp)
  · rename_i hlen0
    split at h
    · exact absurd h (by simp)
    · rename_i head hhead
      dsimp only at h
      rw [Option.some.injEq, Prod.mk.injEq] at h
      obtain ⟨hv, hq'⟩ := h
      subst hq'
      -- the maximal run at the front of the old view
      obtain ⟨i0, j0, hrun0, hi0le, hj0ge⟩ :=
        run_exists q.entry q.len 0 hwf.oob (by rw [hhead]; rfl)
      have hi00 : i0 = 0 := by omega
      subst hi00
      obtain hm0 := hwf.runs 0 j0 hrun0
      obtain ⟨H0, hH01, hH02, hH03, hH04, hH05⟩ := hm0.head
      obtain ⟨T0, hT01, hT02, hT03, hT04⟩ := hm0.tail
      have hHeq : H0 = head := by
        rw [hhead] at hH01
        exact (Option.some.inj hH01).symm
      subst hHeq
      have hlen1 : q.len - 1 + 1 = q.len := by omega
      have hnum_head : H0.num_entries_in_span = j0 + 1 := by omega
      have hss_head : H0.span_start ≤ q.base_sequence_number := by
        unfold startOK at hH05
        rwa [if_pos rfl] at hH05
      have hss_tail : T0.span_start ≤ q.base_sequence_number := by
        unfold startOK at hT04
        rwa [if_pos rfl] at hT04
      have hj0len : j0 < q.len :=
        occ_lt_len hwf.oob (hrun0.occ j0 (by omega) (Nat.le_refl _))
      have htidx : H0.span_end - q.base_sequence_number = j0 := by omega
      have hcnt0 : cntF q.entry q.len =
          1 + cntF (fun i => q.entry (i + 1)) (q.len - 1) := by
        have e1 := cntF_shift q.entry (q.len - 1)
        rw [hlen1] at e1
        rw [e1, hhead]
        simp
      have hcount := hwf.count
      unfold countOcc at hcount
      by_cases hA : q.entry 1 = none
      · -- the popped entry stood alone: the refreshed view is the old view
        -- shifted by one slot
        have hpop : popFun sz q H0 = q.entry := by
          unfold popFun
          split
          · rw [hA]
          · rfl
        by_cases hnz : q.num_entries - 1 = 0
        · refine ⟨?_, ?_, by dsimp only; have := hwf.len_le_gap; omega,
            by dsimp only; have := hwf.base_len_lt; omega, ?_, ?_⟩
          · intro i hi
            show (if q.num_entries - 1 = 0 then (fun _ => none)
              else fun i => popFun sz q H0 (i + 1)) i = none
            rw [if_pos hnz]
          · show q.num_entries - 1 = countOcc _
            unfold countOcc
            dsimp only
            rw [if_pos hnz, cntF_all_none _ (fun k _ => rfl)]
            exact hnz
          · intro L hL
            dsimp only at hL ⊢
            have := hwf.final_eq L hL
            omega
          · intro i j hb
            have hocc := hb.occ i (Nat.le_refl i) hb.le
            rw [if_pos hnz] at hocc
            simp at hocc
        · have hf2 : (fun i => popFun sz q H0 (i + 1)) =
              (fun i => q.entry (i + 1)) := by
            funext i
            rw [hpop]
          refine ⟨?_, ?_, by dsimp only; have := hwf.len_le_gap; omega,
            by dsimp only; have := hwf.base_len_lt; omega, ?_, ?_⟩
          · intro i hi
            dsimp only at hi
            show (if q.num_entries - 1 = 0 then (fun _ => none)
              else fun i => popFun sz q H0 (i + 1)) i = none
            rw [if_neg hnz]
            show popFun sz q H0 (i + 1) = none
            rw [hpop]
            exact hwf.oob (i + 1) (by omega)
          · show q.num_entries - 1 = countOcc _
            unfold countOcc
            dsimp only
            rw [if_neg hnz, hf2]
            omega
          · intro L hL
            dsimp only at hL ⊢
            have := hwf.final_eq L hL
            omega
          · intro i j hb
            dsimp only at hb ⊢
            rw [if_neg hnz, hf2] at hb ⊢
            by_cases hi0 : i = 0
            · exfalso
              subst hi0
              have hocc := hb.occ 0 (Nat.le_refl 0) hb.le
              simp [hA] at hocc
            · exact runMeta_transfer_shift sz q _ hwf i j (by omega)
                (fun k h1 h2 => rfl) hb
      · -- the popped run continues: slot 1 is refreshed, and when the run
        -- extends past it, so is the run's tail entry
        obtain ⟨next, hnext⟩ := Option.ne_none_iff_exists'.mp hA
        have hj01 : 1 ≤ j0 := by
          by_contra hc
          have h00 := hrun0.right
          have hj00 : j0 = 0 := by omega
          rw [hj00, hnext] at h00
          simp at h00
        have h1len : 1 < q.len := by omega
        have hP1 : popFun sz q H0 1 = some { next with
            span_start := H0.span_start,
            span_end := H0.span_end,
            num_entries_in_span := H0.num_entries_in_span - 1,
            total_span_size := H0.total_span_size - sz H0.element } := by
          unfold popFun
          rw [if_pos h1len, hnext]
          dsimp only
          rw [htidx]
          by_cases hj : 1 < j0
          · rw [if_pos hj]
            rw [if_neg (by omega), if_pos rfl]
          · rw [if_neg hj]
            rw [if_pos rfl]
        obtain ⟨TE, hPj, hTEnum, hTEtot, hTEss, hTEel⟩ :
            ∃ TE, popFun sz q H0 j0 = some TE ∧
              TE.num_entries_in_span = H0.num_entries_in_span - 1 ∧
              TE.total_span_size = H0.total_span_size - sz H0.element ∧
              TE.span_start ≤ q.base_sequence_number ∧
              TE.element = T0.element := by
          by_cases hj : 1 < j0
          · refine ⟨{ T0 with
              num_entries_in_span := H0.num_entries_in_span - 1,
              total_span_size := H0.total_span_size - sz H0.element },
              ?_, rfl, rfl, hss_tail, rfl⟩
            unfold popFun
            rw [if_pos h1len, hnext]
            dsimp only
            rw [htidx, if_pos hj]
            rw [if_pos rfl, if_neg (by omega), hT01]
            rfl
          · have hj1 : j0 = 1 := by omega
            have hT0next : T0 = next := by
              rw [hj1, hnext] at hT01
              exact (Option.some.inj hT01).symm
            refine ⟨_, by rw [hj1]; exact hP1, rfl, rfl, ?_, ?_⟩
            · exact hss_head
            · rw [hT0next]
        have hPo : ∀ k, k ≠ 1 → k ≠ j0 → popFun sz q H0 k = q.entry k := by
          intro k h1 h2
          unfold popFun
          rw [if_pos h1len, hnext]
          dsimp only
          rw [htidx]
          by_cases hj : 1 < j0
          · rw [if_pos hj]
            rw [if_neg h2, if_neg h1]
          · rw [if_neg hj]
            rw [if_neg h1]
        have hp0 : popFun sz q H0 0 = q.entry 0 := hPo 0 (by omega) (by omega)
        have hptI : ∀ k, (popFun sz q H0 k).isSome = (q.entry k).isSome := by
          intro k
          by_cases h1 : k = 1
          · subst h1
            rw [hP1, hnext]
            rfl
          · by_cases h2 : k = j0
            · subst h2
              rw [hPj, hT01]
              rfl
            · rw [hPo k h1 h2]
        have helemP : ∀ k, elemSize sz (popFun sz q H0) k =
            elemSize sz q.entry k := by
          intro k
          by_cases h1 : k = 1
          · subst h1
            unfold elemSize
            rw [hP1, hnext]
          · by_cases h2 : k = j0
            · subst h2
              unfold elemSize
              rw [hPj, hT01]
              show sz TE.element = sz T0.element
              rw [hTEel]
            · unfold elemSize
              rw [hPo k h1 h2]
        have hcntP : cntF (popFun sz q H0) q.len = cntF q.entry q.len :=
          cntF_congr _ fun k _ => hptI k
        have hshiftP : cntF (popFun sz q H0) q.len =
            1 + cntF (fun i => popFun sz q H0 (i + 1)) (q.len - 1) := by
          have e1 := cntF_shift (popFun sz q H0) (q.len - 1)
          rw [hlen1] at e1
          rw [e1, hp0, hhead]
          simp
        have hge2 : 2 ≤ q.num_entries := by
          have h1 : 1 ≤ cntF (fun i => q.entry (i + 1)) (q.len - 1) := by
            apply cntF_pos _ _ 0 (by omega)
            show (q.entry 1).isSome = true
            rw [hnext]
            rfl
          omega
        have hnz : ¬ q.num_entries - 1 = 0 := by omega
        refine ⟨?_, ?_, by dsimp only; have := hwf.len_le_gap; omega,
          by dsimp only; have := hwf.base_len_lt; omega, ?_, ?_⟩
        · intro i hi
          dsimp only at hi
          show (if q.num_entries - 1 = 0 then (fun _ => none)
            else fun i => popFun sz q H0 (i + 1)) i = none
          rw [if_neg hnz]
          show popFun sz q H0 (i + 1) = none
          rw [hPo (i + 1) (by omega) (by omega)]
          exact hwf.oob (i + 1) (by omega)
        · show q.num_entries - 1 = countOcc _
          unfold countOcc
          dsimp only
          rw [if_neg hnz]
          omega
        · intro L hL
          dsimp only at hL ⊢
          have := hwf.final_eq L hL
          omega
        · intro i j hb
          dsimp only at hb ⊢
          rw [if_neg hnz] at hb ⊢
          by_cases hi0 : i = 0
          · -- this is the head run: it is exactly the old head run shifted
            subst hi0
            have hbM : RunBounds (fun i => popFun sz q H0 (i + 1)) 0 (j0 - 1) := by
              refine ⟨by omega, fun k h1 h2 => ?_, Or.inl rfl, ?_⟩
              · show (popFun sz q H0 (k + 1)).isSome = true
                rw [hptI (k + 1)]
                exact hrun0.occ (k + 1) (by omega) (by omega)
              · show popFun sz q H0 (j0 - 1 + 1 + 1) = none
                have e1 : j0 - 1 + 1 + 1 = j0 + 1 := by omega
                rw [e1, hPo (j0 + 1) (by omega) (by omega)]
                exact hrun0.right
            obtain ⟨hieq, hjeq⟩ := run_unique hb hbM (Nat.le_refl 0) (by omega)
              (Nat.le_refl 0) (by omega)
            subst hjeq
            have hsumP : spanSum sz (fun i => popFun sz q H0 (i + 1)) 0 j0 =
                spanSum sz q.entry 1 j0 := by
              rw [spanSum_shift_agree j0 fun k _ _ => rfl]
              exact spanSum_congr_elem j0 fun k hk1 hk2 => helemP k
            have e0 : j0 + 1 - 0 = j0 + 1 := by omega
            rw [e0] at hH03
            have hsplit0 : spanSum sz q.entry 0 (j0 + 1) =
                elemSize sz q.entry 0 + spanSum sz q.entry 1 j0 := rfl
            have helem0 : elemSize sz q.entry 0 = sz H0.element := by
              unfold elemSize
              rw [hhead]
            have htot0 : H0.total_span_size =
                sz H0.element + spanSum sz q.entry 1 j0 := by
              rw [hH03, hsplit0, helem0]
            have ej : j0 - 1 + 1 - 0 = j0 := by omega
            constructor
            · refine ⟨{ next with
                span_start := H0.span_start,
                span_end := H0.span_end,
                num_entries_in_span := H0.num_entries_in_span - 1,
                total_span_size := H0.total_span_size - sz H0.element },
                ?_, ?_, ?_, ?_, ?_⟩
              · show popFun sz q H0 (0 + 1) = some _
                exact hP1
              · dsimp only
                omega
              · dsimp only
                rw [ej, hsumP]
                omega
              · dsimp only
                rw [hH04]
                omega
              · unfold startOK
                rw [if_pos rfl]
                dsimp only
                omega
            · refine ⟨TE, ?_, ?_, ?_, ?_⟩
              · show popFun sz q H0 (j0 - 1 + 1) = some TE
                have e1 : j0 - 1 + 1 = j0 := by omega
                rw [e1]
                exact hPj
              · omega
              · rw [ej, hsumP]
                omega
              · unfold startOK
                rw [if_pos rfl]
                omega
          · -- a run beyond the popped one: shifted, untouched
            have higt : j0 < i := by
              by_contra hc
              have hnone : popFun sz q H0 i = none := by
                have h0 := hb.left
                rcases h0 with h0 | h0
                · omega
                · have e1 : i - 1 + 1 = i := by omega
                  rw [e1] at h0
                  exact h0
              by_cases h1 : i = 1
              · rw [h1, hP1] at hnone
                simp at hnone
              · by_cases h2 : i = j0
                · rw [h2, hPj] at hnone
                  simp at hnone
                · rw [hPo i h1 h2] at hnone
                  have := hrun0.occ i (by omega) (by omega)
                  rw [hnone] at this
                  simp at this
            exact runMeta_transfer_shift sz q _ hwf i j (by omega)
              (fun k h1 h2 => by
                show popFun sz q H0 (k + 1) = q.entry (k + 1)
                exact hPo (k + 1) (by omega) (by omega)) hb

/-- A successful `SetFinalSequenceLength` preserves the well-formedness
invariant and fixes the view size to `length - base_sequence_number_`. -/
theorem wf_setFinalSequenceLength (sz : Nat → Nat) (q q' : SequencedQueue)
    (L : Nat) (hwf : WF sz q) (hL : L < twoPow64)
    (h : setFinalSequenceLength q L = some q') : WF sz q' := by
  unfold setFinalSequenceLength at h
  split at h
  · exact absurd h (by simp)
  · rename_i hns
    split at h
    · exact absurd h (by simp)
    · rename_i hge
      split at h
      · exact absurd h (by simp)
      · rename_i hgap
        obtain ⟨hwf', _, _, _, _, _⟩ :=
          wf_reallocate sz { q with final_sequence_length := some L } L q'
            hwf.oob hwf.count hwf.runs hL
            (by dsimp only; omega)
            (by
              intro L' hL'
              dsimp only at hL' ⊢
              have hLL : L' = L := Option.some.inj hL'.symm
              omega)
            h
        exact hwf'

/-- A freshly constructed queue satisfies the invariant. -/
theorem wf_initialQueue (sz : Nat → Nat) (n : Nat) (hn : n < twoPow64) :
    WF sz (initialQueue n) := by
  refine ⟨fun i _ => rfl, rfl, by show (0 : Nat) ≤ getMaxSequenceGap; exact Nat.zero_le _,
    by show n + 0 < twoPow64; omega, ?_, ?_⟩
  · intro L hL
    exact absurd hL (by simp [initialQueue])
  · intro i j hb
    have := hb.occ i (Nat.le_refl i) hb.le
    simp [initialQueue] at this

/-- Every reachable queue state satisfies the invariant. -/
theorem reach_wf (sz : Nat → Nat) (q : SequencedQueue) (h : Reach sz q) :
    WF sz q := by
  induction h with
  | init n hn => exact wf_initialQueue sz n hn
  | stepPush q q' n element hn hq hstep ih => exact wf_push sz q q' n element ih hn hstep
  | stepPop q q' element hq hstep ih => exact wf_pop sz q q' element ih hstep
  | stepSetFinal q q' length hl hq hstep ih =>
    exact wf_setFinalSequenceLength sz q q' length ih hl hstep

/-- In every well-formed state, the head entry's span metadata describes
exactly the contiguous occupied prefix of the view: slot `i` of the view holds
the element with sequence number `current_sequence_number() + i`. -/
theorem availability_spec (sz : Nat → Nat) (q : SequencedQueue)
    (hwf : WF sz q) :
    (∀ i, i < getNumAvailableElements q → (q.entry i).isSome = true) ∧
    (q.entry (getNumAvailableElements q)).isSome = false ∧
    getTotalAvailableElementSize q =
      spanSum sz q.entry 0 (getNumAvailableElements q) := by
  by_cases hlen : q.len = 0
  · have hnum : getNumAvailableElements q = 0 := by
      unfold getNumAvailableElements
      rw [if_pos hlen]
    have htot : getTotalAvailableElementSize q = 0 := by
      unfold getTotalAvailableElementSize
      rw [if_pos hlen]
    rw [hnum, htot]
    refine ⟨fun i hi => by omega, ?_, rfl⟩
    rw [hwf.oob 0 (by omega)]
    rfl
  · cases hh : q.entry 0 with
    | none =>
      have hnum : getNumAvailableElements q = 0 := by
        unfold getNumAvailableElements
        rw [if_neg hlen, hh]
      have htot : getTotalAvailableElementSize q = 0 := by
        unfold getTotalAvailableElementSize
        rw [if_neg hlen, hh]
      rw [hnum, htot]
      refine ⟨fun i hi => by omega, ?_, rfl⟩
      rw [hh]
      rfl
    | some H =>
      have hnum0 : getNumAvailableElements q = H.num_entries_in_span := by
        unfold getNumAvailableElements
        rw [if_neg hlen, hh]
      have htot0 : getTotalAvailableElementSize q = H.total_span_size := by
        unfold getTotalAvailableElementSize
        rw [if_neg hlen, hh]
      rw [hnum0, htot0]
      obtain ⟨i0, j0, hrun, hi0, hj0⟩ :=
        run_exists q.entry q.len 0 hwf.oob (by rw [hh]; rfl)
      have hi00 : i0 = 0 := by omega
      subst hi00
      obtain hm := hwf.runs 0 j0 hrun
      obtain ⟨H', hH1, hH2, hH3, _, _⟩ := hm.head
      have hHH : H = H' := by
        rw [hh] at hH1
        exact Option.some.inj hH1
      subst hHH
      have hnum : H.num_entries_in_span = j0 + 1 := by omega
      refine ⟨fun i hi => hrun.occ i (by omega) (by omega), ?_, ?_⟩
      · rw [hnum, hrun.right]
        rfl
      · rw [hnum]
        have e0 : j0 + 1 - 0 = j0 + 1 := by omega
        rw [e0] at hH3
        exact hH3

/-- C1: for every SequencedQueue state reachable by any sequence of Push, Pop
and SetFinalSequenceLength operations, `GetNumAvailableElements()` returns the
largest `k` such that the `k` entries with sequence numbers
`current_sequence_number()` through `current_sequence_number() + k - 1` are
all occupied.  Slot `i` of the view holds sequence number
`current_sequence_number() + i`, so the two conjuncts state exactly that every
slot below the returned count is occupied and the next slot is not — i.e. the
returned value is that largest `k`. -/
theorem c1_getNumAvailableElements_largest_contiguous (sz : Nat → Nat)
    (q : SequencedQueue) (h : Reach sz q) :
    (∀ i, i < getNumAvailableElements q → (q.entry i).isSome = true) ∧
    (q.entry (getNumAvailableElements q)).isSome = false := by
  obtain ⟨h1, h2, _⟩ := availability_spec sz q (reach_wf sz q h)
  exact ⟨h1, h2⟩

/-- C4: for every reachable SequencedQueue state,
`GetTotalAvailableElementSize()` returns the sum of
`ElementTraits::GetElementSize` (the size function `sz`) over exactly the
contiguous run of occupied entries starting at `current_sequence_number()`:
the sum ranges over the `GetNumAvailableElements()` slots at the front of the
view, which the last two conjuncts identify as exactly that contiguous run. -/
theorem c4_getTotalAvailableElementSize_prefix_sum (sz : Nat → Nat)
    (q : SequencedQueue) (h : Reach sz q) :
    getTotalAvailableElementSize q =
      spanSum sz q.entry 0 (getNumAvailableElements q) ∧
    (∀ i, i < getNumAvailableElements q → (q.entry i).isSome = true) ∧
    (q.entry (getNumAvailableElements q)).isSome = false := by
  obtain ⟨h1, h2, h3⟩ := availability_spec sz q (reach_wf sz q h)
  exact ⟨h3, h1, h2⟩

/-- Concrete state used by the C1 witness: one element pushed at sequence
number 0 into a queue based at 0. -/
def c1WitnessQueue : SequencedQueue :=
  (push (fun v => v) (initialQueue 0) 0 5).getD (initialQueue 0)

/-- Witness for C1: the theorem applied to a concrete reachable state holding
one element. -/
theorem c1_witness :
    Reach (fun v => v) c1WitnessQueue ∧
    ((∀ i, i < getNumAvailableElements c1WitnessQueue →
        (c1WitnessQueue.entry i).isSome = true) ∧
      (c1WitnessQueue.entry (getNumAvailableElements c1WitnessQueue)).isSome =
        false) := by
  have hreach : Reach (fun v => v) c1WitnessQueue :=
    Reach.stepPush (initialQueue 0) c1WitnessQueue 0 5 (by norm_num [twoPow64])
      (Reach.init 0 (by norm_num [twoPow64])) rfl
  exact ⟨hreach, c1_getNumAvailableElements_largest_contiguous _ _ hreach⟩

/-- Witness for C4: the theorem applied to the same concrete reachable
state. -/
theorem c4_witness :
    Reach (fun v => v) c1WitnessQueue ∧
    (getTotalAvailableElementSize c1WitnessQueue =
      spanSum (fun v => v) c1WitnessQueue.entry 0
        (getNumAvailableElements c1WitnessQueue) ∧
    (∀ i, i < getNumAvailableElements c1WitnessQueue →
        (c1WitnessQueue.entry i).isSome = true) ∧
    (c1WitnessQueue.entry (getNumAvailableElements c1WitnessQueue)).isSome =
      false) := by
  have hreach : Reach (fun v => v) c1WitnessQueue :=
    Reach.stepPush (initialQueue 0) c1WitnessQueue 0 5 (by norm_num [twoPow64])
      (Reach.init 0 (by norm_num [twoPow64])) rfl
  exact ⟨hreach, c4_getTotalAvailableElementSize_prefix_sum _ _ hreach⟩

/-- States reachable from `q0` by any sequence of (successful) `Push`, `Pop`
and `SetFinalSequenceLength` operations. -/
inductive ReachFrom (sz : Nat → Nat) (q0 : SequencedQueue) :
    SequencedQueue → Prop
  | refl : ReachFrom sz q0 q0
  | stepPush (q q' : SequencedQueue) (n element : Nat)
      (hq : ReachFrom sz q0 q) (hstep : push sz q n element = some q') :
      ReachFrom sz q0 q'
  | stepPop (q q' : SequencedQueue) (element : Nat)
      (hq : ReachFrom sz q0 q) (hstep : pop sz q = some (element, q')) :
      ReachFrom sz q0 q'
  | stepSetFinal (q q' : SequencedQueue) (length : Nat)
      (hq : ReachFrom sz q0 q)
      (hstep : setFinalSequenceLength q length = some q') : ReachFrom sz q0 q'

/-- Once the final sequence length is `L` with the view ending exactly at `L`,
every subsequent operation maintains both facts. -/
theorem finalInv_reachFrom (sz : Nat → Nat) (q0 q1 : SequencedQueue) (L : Nat)
    (h0 : q0.final_sequence_length = some L ∧
      q0.base_sequence_number + q0.len = L)
    (hr : ReachFrom sz q0 q1) :
    q1.final_sequence_length = some L ∧
      q1.base_sequence_number + q1.len = L := by
  induction hr with
  | refl => exact h0
  | stepPush q q' n element hq hstep ih =>
    unfold push at hstep
    split at hstep
    · exact absurd hstep (by simp)
    · dsimp only at hstep
      split at hstep
      · rename_i hfq
        split at hstep
        · exact absurd hstep (by simp)
        · have hq' := (Option.some.inj hstep).symm
          subst hq'
          exact ih
      · rename_i hfq
        rw [ih.1] at hfq
        exact absurd hfq (by simp)
  | stepPop q q' element hq hstep ih =>
    unfold pop at hstep
    split at hstep
    · exact absurd hstep (by simp)
    · rename_i hlen0
      split at hstep
      · exact absurd hstep (by simp)
      · dsimp only at hstep
        rw [Option.some.injEq, Prod.mk.injEq] at hstep
        obtain ⟨_, hq'⟩ := hstep
        subst hq'
        exact ⟨ih.1, by dsimp only; omega⟩
  | stepSetFinal q q' length hq hstep ih =>
    unfold setFinalSequenceLength at hstep
    rw [ih.1] at hstep
    exact absurd hstep (by simp)

/-- C2: after `SetFinalSequenceLength(L)` succeeds on a SequencedQueue, every
subsequent `Push(n, v)` with `n ≥ L` returns false with the queue unchanged
(`push _ _ n v = none` models exactly that), and no subsequent `Pop` ever
returns an element with sequence number `≥ L`: a successful pop returns the
element with sequence number `current_sequence_number()`, which is always
below `L`. -/
theorem c2_setFinalSequenceLength_bounds (sz : Nat → Nat)
    (q q0 q1 : SequencedQueue) (L : Nat)
    (hset : setFinalSequenceLength q L = some q0)
    (hr : ReachFrom sz q0 q1) :
    (∀ n element, L ≤ n → push sz q1 n element = none) ∧
    (∀ v q2, pop sz q1 = some (v, q2) → q1.base_sequence_number < L) := by
  have hP0 : q0.final_sequence_length = some L ∧
      q0.base_sequence_number + q0.len = L := by
    unfold setFinalSequenceLength at hset
    split at hset
    · exact absurd hset (by simp)
    · split at hset
      · exact absurd hset (by simp)
      · rename_i h2
        split at hset
        · exact absurd hset (by simp)
        · unfold reallocate at hset
          dsimp only at hset
          split at hset
          · exact absurd hset (by simp)
          · have hq0 := (Option.some.inj hset).symm
            subst hq0
            refine ⟨rfl, ?_⟩
            dsimp only
            omega
  obtain ⟨hfin1, hlen1⟩ := finalInv_reachFrom sz q0 q1 L hP0 hr
  constructor
  · intro n element hn
    unfold push
    split
    · rfl
    · rename_i hguard
      obtain ⟨hg1, hg2⟩ := not_or.mp hguard
      dsimp only
      rw [hfin1]
      rw [if_pos (Or.inl (by omega))]
  · intro v q2 hpop
    unfold pop at hpop
    split at hpop
    · exact absurd hpop (by simp)
    · rename_i hlen0
      omega

/-- Concrete queue for the C2 witness: the state produced by a successful
`SetFinalSequenceLength 2` after pushing one element at sequence number 0. -/
def c2WitnessQueue : SequencedQueue :=
  (setFinalSequenceLength c1WitnessQueue 2).getD (initialQueue 0)

/-- Witness for C2: the theorem applied at a concrete queue whose final
sequence length was successfully set to 2. -/
theorem c2_witness :
    setFinalSequenceLength c1WitnessQueue 2 = some c2WitnessQueue ∧
    ((∀ n element, 2 ≤ n →
        push (fun v => v) c2WitnessQueue n element = none) ∧
      (∀ v q2, pop (fun v => v) c2WitnessQueue = some (v, q2) →
        c2WitnessQueue.base_sequence_number < 2)) :=
  ⟨rfl, c2_setFinalSequenceLength_bounds (fun v => v) c1WitnessQueue
    c2WitnessQueue c2WitnessQueue 2 rfl (ReachFrom.refl)⟩

/-- C3 (amended): for every reachable SequencedQueue and every call
`Push(n, v)` with `n` a 64-bit value, the push succeeds exactly when `n` is
not below the current base sequence number, slot `n` is not already occupied
(out-of-window slots count as unoccupied), and: if the final sequence length
`L` is set, `n < L`; otherwise `n` is fewer than 10^6 positions ahead of the
base sequence number and `n + 1` does not wrap around to zero (the source's
`new_limit == 0` check).  On failure the queue is unchanged (`push` returns
`none`, modelling `return false` before any mutation). -/
theorem c3_push_success_characterization (sz : Nat → Nat)
    (q : SequencedQueue) (n element : Nat) (h : Reach sz q)
    (hn : n < twoPow64) :
    (push sz q n element).isSome = true ↔
      (q.base_sequence_number ≤ n ∧
        q.entry (n - q.base_sequence_number) = none ∧
        (match q.final_sequence_length with
         | some L => n < L
         | none => n - q.base_sequence_number < getMaxSequenceGap ∧
             n + 1 ≠ twoPow64)) := by
  have hwf := reach_wf sz q h
  have hgapv : getMaxSequenceGap = 1000000 := rfl
  unfold push
  by_cases hb1 : n < q.base_sequence_number
  · rw [if_pos (Or.inl hb1)]
    simp only [Option.isSome_none, Bool.false_eq_true, false_iff]
    rintro ⟨h1, _, _⟩
    omega
  · by_cases hb2 : getMaxSequenceGap < n - q.base_sequence_number
    · rw [if_pos (Or.inr hb2)]
      simp only [Option.isSome_none, Bool.false_eq_true, false_iff]
      rintro ⟨h1, h2, h3⟩
      cases hfq : q.final_sequence_length with
      | some L =>
        rw [hfq] at h3
        have hfe := hwf.final_eq L hfq
        have hlg := hwf.len_le_gap
        dsimp only at h3
        omega
      | none =>
        rw [hfq] at h3
        dsimp only at h3
        omega
    · rw [if_neg (fun hc => hc.elim (fun hx => hb1 hx) (fun hx => hb2 hx))]
      dsimp only
      cases hfq : q.final_sequence_length with
      | some L =>
        have hfe := hwf.final_eq L hfq
        by_cases hb3 : q.len ≤ n - q.base_sequence_number ∨
            (q.entry (n - q.base_sequence_number)).isSome = true
        · rw [if_pos hb3]
          simp only [Option.isSome_none, Bool.false_eq_true, false_iff]
          rintro ⟨h1, h2, h3⟩
          rcases hb3 with hx | hx
          · omega
          · rw [h2] at hx
            simp at hx
        · rw [if_neg hb3]
          obtain ⟨hc1, hc2⟩ := not_or.mp hb3
          simp only [Option.isSome_some, true_iff]
          refine ⟨by omega,
            Option.not_isSome_iff_eq_none.mp (by simpa using hc2), ?_⟩
          dsimp only
          omega
      | none =>
        by_cases hb3 : n - q.base_sequence_number < q.len
        · rw [if_pos hb3]
          by_cases hb4 : (q.entry (n - q.base_sequence_number)).isSome = true
          · rw [if_pos hb4]
            simp only [Option.isSome_none, Bool.false_eq_true, false_iff]
            rintro ⟨h1, h2, h3⟩
            rw [h2] at hb4
            simp at hb4
          · rw [if_neg hb4]
            simp only [Option.isSome_some, true_iff]
            have hblt := hwf.base_len_lt
            have hlg := hwf.len_le_gap
            refine ⟨by omega,
              Option.not_isSome_iff_eq_none.mp (by simpa using hb4), ?_⟩
            dsimp only
            omega
        · rw [if_neg hb3]
          by_cases hb5 : (n + 1) % twoPow64 = 0
          · rw [if_pos hb5]
            simp only [Option.isSome_none, Bool.false_eq_true, false_iff]
            rintro ⟨h1, h2, h3⟩
            have h2p : twoPow64 = 18446744073709551616 := by
              norm_num [twoPow64]
            rw [h2p] at hb5 hn h3
            omega
          · rw [if_neg hb5]
            have hmodeq : (n + 1) % twoPow64 = n + 1 := by
              apply Nat.mod_eq_of_lt
              have h2p : twoPow64 = 18446744073709551616 := by
                norm_num [twoPow64]
              rw [h2p] at hb5 hn ⊢
              omega
            rw [hmodeq]
            by_cases hb6 : getMaxSequenceGap < n + 1 - q.base_sequence_number
            · have hre : reallocate q (n + 1) = none := by
                unfold reallocate
                rw [if_neg (by omega)]
                dsimp only
                rw [if_pos hb6]
              rw [hre]
              simp only [Option.isSome_none, Bool.false_eq_true, false_iff]
              rintro ⟨h1, h2, h3⟩
              omega
            · have hre : reallocate q (n + 1) =
                  some { q with
                    len := n + 1 - q.base_sequence_number,
                    entry := fun i =>
                      if i < n + 1 - q.base_sequence_number then
                        (if i < q.len then q.entry i else none)
                      else none } := by
                unfold reallocate
                rw [if_neg (by omega)]
                dsimp only
                rw [if_neg hb6]
              rw [hre]
              simp only [Option.isSome_some, true_iff]
              refine ⟨by omega, hwf.oob _ (by omega), ?_⟩
              dsimp only
              have hmod0 : n + 1 ≠ twoPow64 := by
                intro hc
                rw [← hc] at hb5
                simp [Nat.mod_self] at hb5
              omega

/-- Witness for C3's amended characterization: applied at a concrete
reachable queue and a concrete in-range sequence number. -/
theorem c3_witness :
    Reach (fun v => v) c1WitnessQueue ∧ 3 < twoPow64 ∧
    ((push (fun v => v) c1WitnessQueue 3 9).isSome = true ↔
      (c1WitnessQueue.base_sequence_number ≤ 3 ∧
        c1WitnessQueue.entry (3 - c1WitnessQueue.base_sequence_number) = none ∧
        (match c1WitnessQueue.final_sequence_length with
         | some L => 3 < L
         | none => 3 - c1WitnessQueue.base_sequence_number <
             getMaxSequenceGap ∧ 3 + 1 ≠ twoPow64))) := by
  have hreach : Reach (fun v => v) c1WitnessQueue :=
    Reach.stepPush (initialQueue 0) c1WitnessQueue 0 5 (by norm_num [twoPow64])
      (Reach.init 0 (by norm_num [twoPow64])) rfl
  exact ⟨hreach, by norm_num [twoPow64],
    c3_push_success_characterization (fun v => v) c1WitnessQueue 3 9 hreach
      (by norm_num [twoPow64])⟩

/-- Counterexample to C3 as stated: at the 64-bit boundary, a `Push` fails
even though none of the claim's failure conditions holds.  The queue is
freshly constructed at `initial_sequence_number = 2^64 - 1` (reachable), and
`Push(2^64 - 1, v)` satisfies: `n` is not below the base sequence number,
slot `n` is unoccupied, no final sequence length is set, and `n` is 0 entries
ahead of the base (well under the 10^6 cap) — yet `Push` returns false, via
the source's `new_limit == 0` unsigned-wraparound check. -/
theorem c3_counterexample_wraparound :
    push (fun v => v) (initialQueue (twoPow64 - 1)) (twoPow64 - 1) 0 = none ∧
    Reach (fun v => v) (initialQueue (twoPow64 - 1)) ∧
    ¬ ((twoPow64 - 1) <
        (initialQueue (twoPow64 - 1)).base_sequence_number) ∧
    (initialQueue (twoPow64 - 1)).entry
      ((twoPow64 - 1) - (initialQueue (twoPow64 - 1)).base_sequence_number) =
      none ∧
    (initialQueue (twoPow64 - 1)).final_sequence_length = none ∧
    (twoPow64 - 1) - (initialQueue (twoPow64 - 1)).base_sequence_number = 0 := by
  refine ⟨?_, Reach.init _ (by norm_num [twoPow64]), ?_, rfl, rfl, ?_⟩
  · rfl
  · show ¬ ((twoPow64 - 1) < (twoPow64 - 1))
    omega
  · show (twoPow64 - 1) - (twoPow64 - 1) = 0
    omega

end SequencedQueue

/-! Models for the trap, routed-portal-backend, portal-put and proxy-bypass
claims (C5-C10), embedded from `src/core/trap.cc`,
`src/core/routed_portal_backend.cc`, `src/core/portal.cc` and
`src/core/node_link.cc`. -/

/-- The ipcz result codes used by the embedded operations. -/
inductive IpczResult where
  | ok
  | invalidArgument
  | alreadyExists
  | failedPrecondition
  | notFound
  | unavailable
  | resourceExhausted
  | unimplemented
  deriving Repr, DecidableEq

/-- Trap condition selection, mirroring `IpczTrapConditions`: one flag per
`IPCZ_TRAP_CONDITION_*` bit plus the numeric thresholds. -/
structure IpczTrapConditions where
  peer_closed : Bool
  dead : Bool
  local_parcels : Bool
  local_bytes : Bool
  remote_parcels : Bool
  remote_bytes : Bool
  min_local_parcels : Nat
  min_local_bytes : Nat
  max_remote_parcels : Nat
  max_remote_bytes : Nat
  deriving Repr, DecidableEq

/-- Portal status snapshot, mirroring the fields of `IpczPortalStatus` read by
`Trap::GetEventFlags`. -/
structure IpczPortalStatus where
  peer_closed : Bool
  dead : Bool
  num_local_parcels : Nat
  num_local_bytes : Nat
  num_remote_parcels : Nat
  num_remote_bytes : Nat
  deriving Repr, DecidableEq

/-- A set of satisfied trap condition flags, mirroring
`IpczTrapConditionFlags` (one Bool per `IPCZ_TRAP_CONDITION_*` bit). -/
structure TrapConditionFlags where
  peer_closed : Bool
  dead : Bool
  local_parcels : Bool
  local_bytes : Bool
  remote_parcels : Bool
  remote_bytes : Bool
  deriving Repr, DecidableEq

/-- The empty flag set (`event_flags == 0` in the source). -/
def TrapConditionFlags.none : TrapConditionFlags :=
  ⟨false, false, false, false, false, false⟩

/-- Mirrors `Trap::GetEventFlags(status)`: which of the trap's selected
conditions the given portal status satisfies. -/
def getEventFlags (c : IpczTrapConditions) (s : IpczPortalStatus) :
    TrapConditionFlags where
  peer_closed := c.peer_closed && s.peer_closed
  dead := c.dead && s.dead
  local_parcels := c.local_parcels &&
    decide (c.min_local_parcels ≤ s.num_local_parcels)
  local_bytes := c.local_bytes &&
    decide (c.min_local_bytes ≤ s.num_local_bytes)
  remote_parcels := c.remote_parcels &&
    decide (s.num_remote_parcels < c.max_remote_parcels)
  remote_bytes := c.remote_bytes &&
    decide (s.num_remote_bytes < c.max_remote_bytes)

/-- Mutable trap state relevant to `Trap::Arm`, mirroring `Trap`'s
`conditions_`, `is_enabled_` and `is_armed_` fields. -/
structure Trap where
  conditions : IpczTrapConditions
  is_enabled : Bool
  is_armed : Bool
  deriving Repr, DecidableEq

/-- Mirrors `Trap::Arm(satisfied_condition_flags, status)` evaluated against
the router's current portal status.  Returns the result code and the trap
state after the call (the out-parameters do not affect trap state). -/
def Trap.arm (t : Trap) (current_status : IpczPortalStatus) :
    IpczResult × Trap :=
  if !t.is_enabled then (.invalidArgument, t)
  else if t.is_armed then (.alreadyExists, t)
  else if getEventFlags t.conditions current_status ≠ TrapConditionFlags.none then
    (.failedPrecondition, t)
  else (.ok, { t with is_armed := true })

/-! Concurrency model for `Trap::Disable` with `IPCZ_DESTROY_TRAP_BLOCKING`
and `Trap::MaybeDispatchEvent` (claim C7).  Each mutex-protected critical
section of `trap.cc` is one atomic step: `MaybeDispatchEvent`'s entry section
checks `is_enabled_` and increments `num_current_dispatches_`; the handler
call itself runs outside the mutex while the count is positive; the exit
section decrements the count.  `Disable(BLOCKING)` acquires the mutex under
the condition `num_current_dispatches_ == 0` and clears `is_enabled_`;
non-blocking `Disable` clears it unconditionally.  Nothing ever sets
`is_enabled_` back to true. -/

/-- The shared trap state guarded by `Trap::mutex_`. -/
structure TrapSync where
  is_enabled : Bool
  num_current_dispatches : Nat
  deriving Repr, DecidableEq

/-- Observable events of the trap concurrency model. -/
inductive TrapEvent where
  | beginDispatch
  | invokeHandler
  | endDispatch
  | disable (blocking : Bool)
  deriving Repr, DecidableEq

/-- One atomic step of `trap.cc`'s mutex-protected state machine. -/
inductive TrapStep : TrapSync → TrapEvent → TrapSync → Prop where
  | beginDispatch (s : TrapSync) (h : s.is_enabled = true) :
      TrapStep s .beginDispatch
        { s with num_current_dispatches := s.num_current_dispatches + 1 }
  | invokeHandler (s : TrapSync) (h : 0 < s.num_current_dispatches) :
      TrapStep s .invokeHandler s
  | endDispatch (s : TrapSync) (h : 0 < s.num_current_dispatches) :
      TrapStep s .endDispatch
        { s with num_current_dispatches := s.num_current_dispatches - 1 }
  | disable (s : TrapSync) (blocking : Bool)
      (h : blocking = true → s.num_current_dispatches = 0) :
      TrapStep s (.disable blocking) { s with is_enabled := false }

/-- An interleaved execution: a list of events relating an initial and a
final shared state. -/
inductive TrapTrace : TrapSync → List TrapEvent → TrapSync → Prop where
  | nil (s : TrapSync) : TrapTrace s [] s
  | cons (s s' s'' : TrapSync) (e : TrapEvent) (es : List TrapEvent)
      (hstep : TrapStep s e s') (htr : TrapTrace s' es s'') :
      TrapTrace s (e :: es) s''

/-! Model of the `RoutedPortalBackend` get paths (claims C8, C9). -/

/-- A queued parcel as observed by the get paths: data bytes plus attachment
counts. -/
structure Parcel where
  data : List Nat
  num_portals : Nat
  num_os_handles : Nat
  deriving Repr, DecidableEq

/-- The `RoutedPortalBackend` state observable through its get paths:
`incoming_parcels_` (front first), the `IPCZ_PORTAL_STATUS_PEER_CLOSED` bit
and byte/parcel counters of `status_`, and `in_two_phase_get_`. -/
structure RoutedPortalBackend where
  incoming_parcels : List Parcel
  status_peer_closed : Bool
  num_local_parcels : Nat
  num_local_bytes : Nat
  in_two_phase_get : Bool
  deriving Repr, DecidableEq

/-- Capacities supplied to `RoutedPortalBackend::Get` through its
out-parameters; `none` models a null pointer (capacity 0 in the source's
`available_*_storage` computation). -/
structure GetArgs where
  num_data_bytes : Option Nat
  num_portals : Option Nat
  num_os_handles : Option Nat
  deriving Repr, DecidableEq

/-- Pointer presence for `RoutedPortalBackend::BeginGet`'s `data` and
`num_data_bytes` out-parameters. -/
structure BeginGetArgs where
  data_ptr : Bool
  num_data_bytes_ptr : Bool
  deriving Repr, DecidableEq

/-- Mirrors `RoutedPortalBackend::Get`.  Returns the result code and the
backend state after the call; out-parameter writes (sizes, copied data,
consumed attachments) do not affect backend state beyond the queue and byte
counter updates modelled here. -/
def RoutedPortalBackend.get (b : RoutedPortalBackend) (a : GetArgs) :
    IpczResult × RoutedPortalBackend :=
  if b.in_two_phase_get then (.alreadyExists, b)
  else
    match b.incoming_parcels with
    | [] =>
      if b.status_peer_closed then (.notFound, b) else (.unavailable, b)
    | p :: rest =>
      if a.num_data_bytes.getD 0 < p.data.length ∨
          a.num_portals.getD 0 < p.num_portals ∨
          a.num_os_handles.getD 0 < p.num_os_handles then
        (.resourceExhausted, b)
      else
        (.ok, { b with
          incoming_parcels := rest,
          num_local_bytes := b.num_local_bytes - p.data.length })

/-- Mirrors `RoutedPortalBackend::BeginGet`. -/
def RoutedPortalBackend.beginGet (b : RoutedPortalBackend)
    (a : BeginGetArgs) : IpczResult × RoutedPortalBackend :=
  if b.in_two_phase_get then (.alreadyExists, b)
  else
    match b.incoming_parcels with
    | [] =>
      if b.status_peer_closed then (.notFound, b) else (.unavailable, b)
    | p :: _ =>
      if 0 < p.data.length ∧ (a.data_ptr = false ∨ a.num_data_bytes_ptr = false) then
        (.resourceExhausted, b)
      else
        (.ok, { b with in_two_phase_get := true })

/-- Mirrors `RoutedPortalBackend::CommitGet`.  The empty-queue case cannot be
reached while `in_two_phase_get_` is set (the source indexes
`incoming_parcels_.front()` unconditionally there); it is mapped to the
failed-precondition result to keep the function total. -/
def RoutedPortalBackend.commitGet (b : RoutedPortalBackend)
    (num_data_bytes_consumed : Nat) (a : GetArgs) :
    IpczResult × RoutedPortalBackend :=
  if !b.in_two_phase_get then (.failedPrecondition, b)
  else
    match b.incoming_parcels with
    | [] => (.failedPrecondition, b)
    | p :: rest =>
      if p.data.length < num_data_bytes_consumed then (.invalidArgument, b)
      else
        if a.num_portals.getD 0 < p.num_portals ∨
            a.num_os_handles.getD 0 < p.num_os_handles then
          (.resourceExhausted, b)
        else if num_data_bytes_consumed = p.data.length then
          (.ok, { b with
            incoming_parcels := rest,
            num_local_bytes := b.num_local_bytes - num_data_bytes_consumed,
            in_two_phase_get := false })
        else
          (.ok, { b with
            incoming_parcels :=
              { p with
                data := p.data.drop num_data_bytes_consumed,
                num_portals := 0,
                num_os_handles := 0 } :: rest,
            num_local_bytes := b.num_local_bytes - num_data_bytes_consumed,
            in_two_phase_get := false })

/-- Mirrors `RoutedPortalBackend::AbortGet`. -/
def RoutedPortalBackend.abortGet (b : RoutedPortalBackend) :
    IpczResult × RoutedPortalBackend :=
  if !b.in_two_phase_get then (.failedPrecondition, b)
  else (.ok, { b with in_two_phase_get := false })

/-- Mirrors `RoutedPortalBackend::AcceptParcel`: queues the parcel and bumps
the status counters. -/
def RoutedPortalBackend.acceptParcel (b : RoutedPortalBackend) (p : Parcel) :
    RoutedPortalBackend :=
  { b with
    incoming_parcels := b.incoming_parcels ++ [p],
    num_local_parcels := b.num_local_parcels + 1,
    num_local_bytes := b.num_local_bytes + p.data.length }

/-- A freshly constructed `RoutedPortalBackend`: `status_` is zeroed, the
queue is empty, and no two-phase get is in progress. -/
def initialBackend : RoutedPortalBackend :=
  { incoming_parcels := [], status_peer_closed := false,
    num_local_parcels := 0, num_local_bytes := 0, in_two_phase_get := false }

/-- Modelled from the spec: the `setPeerClosed` step, by which receipt of
route closure sets the peer-closed status bit, follows the spec's route
closure description (the router-side code performing this update is not
among the surviving sources); every other step is one of the backend
operations embedded above from `routed_portal_backend.cc`. -/
inductive BackendReach : RoutedPortalBackend → Prop where
  | init : BackendReach initialBackend
  | stepAccept (b : RoutedPortalBackend) (p : Parcel) (h : BackendReach b) :
      BackendReach (b.acceptParcel p)
  | stepGet (b : RoutedPortalBackend) (a : GetArgs) (h : BackendReach b) :
      BackendReach (b.get a).2
  | stepBeginGet (b : RoutedPortalBackend) (a : BeginGetArgs)
      (h : BackendReach b) : BackendReach (b.beginGet a).2
  | stepCommitGet (b : RoutedPortalBackend) (n : Nat) (a : GetArgs)
      (h : BackendReach b) : BackendReach (b.commitGet n a).2
  | stepAbortGet (b : RoutedPortalBackend) (h : BackendReach b) :
      BackendReach b.abortGet.2
  | stepSetPeerClosed (b : RoutedPortalBackend) (h : BackendReach b) :
      BackendReach { b with status_peer_closed := true }

/-! Model of `Portal::Put`'s attachment validation (claim C10). -/

/-- How one attached portal handle relates to the sending portal:
`is_sender` models `&sender == portal.get()` and `is_local_peer_of_sender`
models `sender.router()->HasLocalPeer(portal->router())`. -/
structure AttachedPortal where
  is_sender : Bool
  is_local_peer_of_sender : Bool
  deriving Repr, DecidableEq

/-- Mirrors `ValidateAndAcquirePortalsForTransitFrom`: false as soon as any
attached handle is the sender itself or a portal whose router is the
sender's local peer. -/
def validateAndAcquirePortalsForTransitFrom
    (portals : List AttachedPortal) : Bool :=
  portals.all fun p => !(p.is_sender || p.is_local_peer_of_sender)

/-- Mirrors the decision sequence of `Portal::Put`.  The router-dependent
outcomes (`WouldOutgoingParcelExceedLimits`, `IsPeerClosed`,
`SendOutgoingParcel`) are abstracted as inputs, since `Portal::Put` only
sequences them after the validation step.  The Bool in the result records
whether anything was transferred (attached portals, bytes or handles
consumed): on every failure path the source returns before transferring, and
on `SendOutgoingParcel` failure it releases the OS handles back to the
caller. -/
def portalPut (portals : List AttachedPortal)
    (would_exceed_limits : Bool) (peer_closed : Bool)
    (send_result : IpczResult) : IpczResult × Bool :=
  if !validateAndAcquirePortalsForTransitFrom portals then
    (.invalidArgument, false)
  else if would_exceed_limits then (.resourceExhausted, false)
  else if peer_closed then (.notFound, false)
  else if send_result = .ok then (.ok, true)
  else (send_result, false)

/-! Model of `NodeLink::BypassProxy`'s pause/transmit ordering (claim C5).
The four statements of `NodeLink::BypassProxy` relevant to the claim are
modelled as program-counter steps, interleaved with outbound sends on the new
peer router.  The router's pause behaviour is modelled from the spec
(`Router::PauseOutgoingTransmission` / `SendOutgoingParcel` are declared in
`router.h` but their implementation is not among the surviving sources):
an outgoing parcel is handed to the outward link only when the link is
present and transmission is not paused, and is queued otherwise; unpausing
lets queued parcels flush to the link. -/

/-- Messages observable on the transport in this model. -/
inductive BypassMsg where
  | bypassProxy
  deriving Repr, DecidableEq

/-- Joint state of `NodeLink::BypassProxy`'s progress and the new peer
router's outbound path. -/
structure BypassState where
  pc : Nat
  paused : Bool
  link_installed : Bool
  wire : List BypassMsg
  outgoing_queue : Nat
  handed_to_new_link : Nat
  deriving Repr, DecidableEq

/-- Initial state: `BypassProxy` not yet started, fresh router with no
outward link, nothing transmitted. -/
def initialBypassState : BypassState :=
  { pc := 0, paused := false, link_installed := false, wire := [],
    outgoing_queue := 0, handed_to_new_link := 0 }

/-- Modelled from the spec: the `sendDirect`, `sendQueued` and `flushQueued`
steps follow the spec's outbound-transmission rule (hand the parcel to the
outward link only when present and not paused, otherwise queue it, and flush
the queue once unpaused); the four program-counter steps are the statements
of `NodeLink::BypassProxy` in program order. -/
inductive BypassStep : BypassState → BypassState → Prop where
  | pauseOutbound (s : BypassState) (h : s.pc = 0) :
      BypassStep s { s with pc := 1, paused := true }
  | setOutwardLink (s : BypassState) (h : s.pc = 1) :
      BypassStep s { s with pc := 2, link_installed := true }
  | transmitBypassProxy (s : BypassState) (h : s.pc = 2) :
      BypassStep s { s with pc := 3, wire := s.wire ++ [.bypassProxy] }
  | unpauseOutbound (s : BypassState) (h : s.pc = 3) :
      BypassStep s { s with pc := 4, paused := false }
  | sendDirect (s : BypassState) (h1 : s.link_installed = true)
      (h2 : s.paused = false) :
      BypassStep s { s with handed_to_new_link := s.handed_to_new_link + 1 }
  | sendQueued (s : BypassState)
      (h : s.link_installed = false ∨ s.paused = true) :
      BypassStep s { s with outgoing_queue := s.outgoing_queue + 1 }
  | flushQueued (s : BypassState) (h1 : s.link_installed = true)
      (h2 : s.paused = false) (h3 : 0 < s.outgoing_queue) :
      BypassStep s { s with
        outgoing_queue := s.outgoing_queue - 1,
        handed_to_new_link := s.handed_to_new_link + 1 }

/-- States reachable from the initial state by interleaved steps. -/
inductive BypassReach : BypassState → Prop where
  | init : BypassReach initialBypassState
  | step (s s' : BypassState) (h : BypassReach s) (hstep : BypassStep s s') :
      BypassReach s'

/-! Theorems for claims C5-C10. -/

/-- A concrete trap condition selection used in the C6 instances. -/
def c6Conditions : IpczTrapConditions :=
  { peer_closed := true, dead := false, local_parcels := false,
    local_bytes := false, remote_parcels := false, remote_bytes := false,
    min_local_parcels := 0, min_local_bytes := 0,
    max_remote_parcels := 0, max_remote_bytes := 0 }

/-- A concrete enabled, armed trap. -/
def c6ArmedTrap : Trap :=
  { conditions := c6Conditions, is_enabled := true, is_armed := true }

/-- A portal status satisfying none of `c6Conditions`. -/
def c6Status : IpczPortalStatus :=
  { peer_closed := false, dead := false, num_local_parcels := 0,
    num_local_bytes := 0, num_remote_parcels := 0, num_remote_bytes := 0 }

/-- C6 counterexample: arming the enabled, already-armed trap `c6ArmedTrap`
returns `alreadyExists`, not the `failedPrecondition` the claim states
(`failedPrecondition` is what `Trap::Arm` returns when the trap's conditions
are already satisfied). -/
theorem c6_counterexample_arm_armed_not_failed_precondition :
    (c6ArmedTrap.arm c6Status).1 = IpczResult.alreadyExists ∧
    (c6ArmedTrap.arm c6Status).1 ≠ IpczResult.failedPrecondition := by
  decide

/-- C6 (amended): arming a trap that is enabled and already armed fails with
the `alreadyExists` error, and the trap state - in particular its arm
state - is unchanged by the failed call. -/
theorem c6_arm_armed_returns_already_exists (t : Trap)
    (s : IpczPortalStatus) (hen : t.is_enabled = true)
    (harm : t.is_armed = true) :
    t.arm s = (IpczResult.alreadyExists, t) := by
  simp [Trap.arm, hen, harm]

/-- C6 witness: the amended theorem instantiated at `c6ArmedTrap`. -/
theorem c6_witness :
    c6ArmedTrap.arm c6Status = (IpczResult.alreadyExists, c6ArmedTrap) :=
  c6_arm_armed_returns_already_exists c6ArmedTrap c6Status rfl rfl

/-- Splitting a trace at a list append point. -/
theorem trapTrace_append (s0 s2 : TrapSync) (xs ys : List TrapEvent)
    (h : TrapTrace s0 (xs ++ ys) s2) :
    ∃ s1, TrapTrace s0 xs s1 ∧ TrapTrace s1 ys s2 := by
  induction xs generalizing s0 with
  | nil => exact ⟨s0, TrapTrace.nil s0, h⟩
  | cons e es ih =>
    cases h with
    | cons _ s' _ _ _ hstep htr =>
      obtain ⟨s1, h1, h2⟩ := ih s' htr
      exact ⟨s1, TrapTrace.cons _ _ _ _ _ hstep h1, h2⟩

/-- From a disabled state with no dispatch in flight, no step ever begins a
dispatch or invokes the handler again: `is_enabled_` is never set back to
true and the dispatch count can never become positive. -/
theorem trapDeadNoEvents (evs : List TrapEvent) :
    ∀ s s2 : TrapSync, TrapTrace s evs s2 → s.is_enabled = false →
      s.num_current_dispatches = 0 →
      TrapEvent.invokeHandler ∉ evs ∧ TrapEvent.beginDispatch ∉ evs := by
  induction evs with
  | nil => intro s s2 _ _ _; simp
  | cons e es ih =>
    intro s s2 h he hn
    cases h with
    | cons _ s' _ _ _ hstep htr =>
      cases hstep with
      | beginDispatch hen => rw [he] at hen; simp at hen
      | invokeHandler hpos => omega
      | endDispatch hpos => omega
      | disable hb =>
        obtain ⟨ih1, ih2⟩ := ih _ s2 htr rfl hn
        constructor
        · intro hmem
          rcases List.mem_cons.mp hmem with hc | hc
          · exact absurd hc (by simp)
          · exact ih1 hc
        · intro hmem
          rcases List.mem_cons.mp hmem with hc | hc
          · exact absurd hc (by simp)
          · exact ih2 hc

/-- C7: in every interleaved execution containing a blocking disable, no
handler invocation (and no dispatch entry) occurs after the blocking disable
returns, and a blocking disable can only step from a state with zero handler
invocations in flight, so the destroy call does not return while a handler
invocation is in progress. -/
theorem c7_blocking_disable_stops_handler (s0 s2 : TrapSync)
    (pre post : List TrapEvent)
    (htr : TrapTrace s0 (pre ++ TrapEvent.disable true :: post) s2)
    (s s' : TrapSync) (hd : TrapStep s (TrapEvent.disable true) s') :
    TrapEvent.invokeHandler ∉ post ∧ TrapEvent.beginDispatch ∉ post ∧
    s.num_current_dispatches = 0 := by
  obtain ⟨s1, _, h2⟩ := trapTrace_append s0 s2 pre _ htr
  cases h2 with
  | cons _ smid _ _ _ hstep htr2 =>
    cases hstep
    rename_i hb
    have hnum : _ = 0 := hb rfl
    obtain ⟨hi, hbd⟩ := trapDeadNoEvents post _ s2 htr2 rfl hnum
    refine ⟨hi, hbd, ?_⟩
    cases hd
    rename_i hb2
    exact hb2 rfl

/-- C7 witness: a concrete five-event trace - dispatch entry, handler
invocation, dispatch exit, blocking disable, then one more (non-blocking)
disable - instantiating the theorem with post = the final event. -/
theorem c7_witness :
    TrapEvent.invokeHandler ∉ [TrapEvent.disable false] ∧
    TrapEvent.beginDispatch ∉ [TrapEvent.disable false] ∧
    (⟨true, 0⟩ : TrapSync).num_current_dispatches = 0 :=
  c7_blocking_disable_stops_handler ⟨true, 0⟩ ⟨false, 0⟩
    [.beginDispatch, .invokeHandler, .endDispatch] [.disable false]
    (.cons _ _ _ _ _ (.beginDispatch ⟨true, 0⟩ rfl)
      (.cons _ _ _ _ _ (.invokeHandler ⟨true, 1⟩ (by decide))
        (.cons _ _ _ _ _ (.endDispatch ⟨true, 1⟩ (by decide))
          (.cons _ _ _ _ _ (.disable ⟨true, 0⟩ true fun _ => rfl)
            (.cons _ _ _ _ _ (.disable ⟨false, 0⟩ false fun _ => rfl)
              (.nil ⟨false, 0⟩))))))
    ⟨true, 0⟩ ⟨false, 0⟩ (.disable ⟨true, 0⟩ true fun _ => rfl)

/-- A two-phase get is only ever in progress while the incoming parcel queue
is nonempty: `BeginGet` sets the flag only after finding a front parcel, and
both `CommitGet` and `AbortGet` clear it. -/
theorem backend_twoPhase_nonempty (b : RoutedPortalBackend)
    (h : BackendReach b) :
    b.in_two_phase_get = true → b.incoming_parcels ≠ [] := by
  induction h with
  | init => intro h; simp [initialBackend] at h
  | stepAccept b p _ ih =>
    intro _
    simp only [RoutedPortalBackend.acceptParcel]
    exact List.append_ne_nil_of_right_ne_nil _ (by simp)
  | stepGet b a _ ih =>
    rw [RoutedPortalBackend.get]
    split
    · exact ih
    · split
      · split <;> exact ih
      · split
        · exact ih
        · intro hflag; exact absurd hflag (by simp_all)
  | stepBeginGet b a _ ih =>
    rw [RoutedPortalBackend.beginGet]
    split
    · exact ih
    · rename_i hq
      split
      · split <;> exact ih
      · split
        · exact ih
        · intro _; simp_all
  | stepCommitGet b n a _ ih =>
    rw [RoutedPortalBackend.commitGet]
    split
    · exact ih
    · rename_i hflag
      split
      · rename_i hq
        intro _
        exact absurd hq (ih (by simpa using hflag))
      · split
        · exact ih
        · split
          · exact ih
          · split <;> intro hf <;> simp_all
  | stepAbortGet b _ ih =>
    rw [RoutedPortalBackend.abortGet]
    split
    · exact ih
    · intro hf; simp_all
  | stepSetPeerClosed b _ ih => exact ih

/-- C8: calling `Get` on any reachable backend whose incoming parcel queue
is empty returns `notFound` when the peer-closed status bit is set and
`unavailable` otherwise, and leaves the backend state unchanged. -/
theorem c8_get_empty_queue (b : RoutedPortalBackend) (a : GetArgs)
    (h : BackendReach b) (hempty : b.incoming_parcels = []) :
    b.get a =
      ((if b.status_peer_closed then IpczResult.notFound
        else IpczResult.unavailable), b) := by
  have hflag : b.in_two_phase_get = false := by
    cases hf : b.in_two_phase_get with
    | false => rfl
    | true => exact absurd hempty (backend_twoPhase_nonempty b h hf)
  rw [RoutedPortalBackend.get, hflag, hempty]
  cases hpc : b.status_peer_closed <;> simp [hpc]

/-- C8 witness: the theorem instantiated at the freshly constructed backend
(peer open, result `unavailable`) and at the same backend after route
closure (result `notFound`). -/
theorem c8_witness :
    initialBackend.get ⟨none, none, none⟩ =
      ((if initialBackend.status_peer_closed then IpczResult.notFound
        else IpczResult.unavailable), initialBackend) ∧
    ({ initialBackend with status_peer_closed := true }).get
        ⟨none, none, none⟩ =
      ((if ({ initialBackend with
              status_peer_closed := true }).status_peer_closed then
          IpczResult.notFound
        else IpczResult.unavailable),
        { initialBackend with status_peer_closed := true }) :=
  ⟨c8_get_empty_queue initialBackend ⟨none, none, none⟩ .init rfl,
   c8_get_empty_queue _ ⟨none, none, none⟩
     (.stepSetPeerClosed initialBackend .init) rfl⟩

/-- C9: a successful `BeginGet` followed immediately by `AbortGet` restores
the backend state exactly - the parcel queue (hence the next parcel's data),
the cached status fields and the two-phase flag all return to their prior
values - and `AbortGet` reports success. -/
theorem c9_beginGet_abortGet_roundtrip (b b' : RoutedPortalBackend)
    (a : BeginGetArgs) (h : b.beginGet a = (IpczResult.ok, b')) :
    b'.abortGet = (IpczResult.ok, b) := by
  rw [RoutedPortalBackend.beginGet] at h
  split at h
  · exact absurd (congrArg Prod.fst h) (by simp)
  · rename_i hflag
    split at h
    · split at h <;> exact absurd (congrArg Prod.fst h) (by simp)
    · split at h
      · exact absurd (congrArg Prod.fst h) (by simp)
      · have hb' : b' = { b with in_two_phase_get := true } :=
          (congrArg Prod.snd h).symm
        have hbf : b.in_two_phase_get = false := by
          simpa using hflag
        rw [hb', RoutedPortalBackend.abortGet]
        cases b
        simp_all

/-- C9 witness: round trip on a backend holding one two-byte parcel. -/
theorem c9_witness :
    RoutedPortalBackend.abortGet
        { initialBackend.acceptParcel ⟨[1, 2], 0, 0⟩ with
          in_two_phase_get := true } =
      (IpczResult.ok, initialBackend.acceptParcel ⟨[1, 2], 0, 0⟩) :=
  c9_beginGet_abortGet_roundtrip _ _ ⟨true, true⟩ rfl

/-- C10: `Put` returns `invalidArgument` and transfers nothing whenever some
attached portal is the sending portal itself or has the sender's router as
direct local peer, regardless of limit, peer-closure and transmission
outcomes. -/
theorem c10_put_invalid_attachment (portals : List AttachedPortal)
    (would_exceed_limits peer_closed : Bool) (send_result : IpczResult)
    (p : AttachedPortal) (hp : p ∈ portals)
    (hbad : p.is_sender = true ∨ p.is_local_peer_of_sender = true) :
    portalPut portals would_exceed_limits peer_closed send_result =
      (IpczResult.invalidArgument, false) := by
  have hv : validateAndAcquirePortalsForTransitFrom portals = false := by
    cases hall : validateAndAcquirePortalsForTransitFrom portals with
    | false => rfl
    | true =>
      have hone := List.all_eq_true.mp hall p hp
      rcases hbad with hb | hb <;> rw [hb] at hone <;> simp at hone
  rw [portalPut, hv]
  simp

/-- C10 witness: putting with the sending portal itself attached. -/
theorem c10_witness :
    portalPut [⟨true, false⟩] false false IpczResult.ok =
      (IpczResult.invalidArgument, false) :=
  c10_put_invalid_attachment [⟨true, false⟩] false false IpczResult.ok
    ⟨true, false⟩ (by decide) (Or.inl rfl)

/-- Inductive invariant of the bypass model tying each observable to the
program counter of `NodeLink::BypassProxy`. -/
def BypassInv (s : BypassState) : Prop :=
  s.pc ≤ 4 ∧
  (s.link_installed = true ↔ 2 ≤ s.pc) ∧
  (s.paused = true ↔ (1 ≤ s.pc ∧ s.pc ≤ 3)) ∧
  (BypassMsg.bypassProxy ∈ s.wire ↔ 3 ≤ s.pc) ∧
  (0 < s.handed_to_new_link → s.pc = 4)

/-- The invariant holds in every reachable state of the bypass model. -/
theorem bypassInv_reach (s : BypassState) (h : BypassReach s) :
    BypassInv s := by
  induction h with
  | init =>
    refine ⟨by decide, by decide, by decide, ?_, by decide⟩
    simp [initialBypassState]
  | step s s' _ hstep ih =>
    obtain ⟨h1, h2, h3, h4, h5⟩ := ih
    cases hstep with
    | pauseOutbound hpc =>
      refine ⟨?_, ?_, ?_, ?_, ?_⟩ <;> dsimp only
      · omega
      · rw [h2]; omega
      · simp
      · rw [h4]; omega
      · intro hh; have := h5 hh; omega
    | setOutwardLink hpc =>
      refine ⟨?_, ?_, ?_, ?_, ?_⟩ <;> dsimp only
      · omega
      · simp
      · rw [h3]; omega
      · rw [h4]; omega
      · intro hh; have := h5 hh; omega
    | transmitBypassProxy hpc =>
      refine ⟨?_, ?_, ?_, ?_, ?_⟩ <;> dsimp only
      · omega
      · rw [h2]; omega
      · rw [h3]; omega
      · simp [List.mem_append]
      · intro hh; have := h5 hh; omega
    | unpauseOutbound hpc =>
      refine ⟨?_, ?_, ?_, ?_, ?_⟩ <;> dsimp only
      · omega
      · rw [h2]; omega
      · simp
      · rw [h4]; omega
      · intro _; rfl
    | sendDirect hinst hpause =>
      have hge := h2.mp hinst
      have hnp : ¬(1 ≤ s.pc ∧ s.pc ≤ 3) := by
        intro hc
        rw [← h3] at hc
        rw [hpause] at hc
        exact absurd hc (by simp)
      have hpc4 : s.pc = 4 := by omega
      exact ⟨h1, h2, h3, h4, fun _ => hpc4⟩
    | sendQueued hq => exact ⟨h1, h2, h3, h4, h5⟩
    | flushQueued hinst hpause hq =>
      have hge := h2.mp hinst
      have hnp : ¬(1 ≤ s.pc ∧ s.pc ≤ 3) := by
        intro hc
        rw [← h3] at hc
        rw [hpause] at hc
        exact absurd hc (by simp)
      have hpc4 : s.pc = 4 := by omega
      exact ⟨h1, h2, h3, h4, fun _ => hpc4⟩

/-- C5: in every reachable state of the bypass model, any parcel already
handed to the new outward link implies the `BypassProxy` message is on the
wire, and whenever the new link is installed and transmission is unpaused
(the only situation in which a parcel can be handed over), the
`BypassProxy` message is already on the wire. -/
theorem c5_bypass_pause_ordering (s : BypassState) (h : BypassReach s) :
    (0 < s.handed_to_new_link → BypassMsg.bypassProxy ∈ s.wire) ∧
    (s.link_installed = true → s.paused = false →
      BypassMsg.bypassProxy ∈ s.wire) := by
  obtain ⟨h1, h2, h3, h4, h5⟩ := bypassInv_reach s h
  constructor
  · intro hh
    have := h5 hh
    rw [h4]; omega
  · intro hinst hpause
    have hge := h2.mp hinst
    have hnp : ¬(1 ≤ s.pc ∧ s.pc ≤ 3) := by
      intro hc
      rw [← h3] at hc
      rw [hpause] at hc
      exact absurd hc (by simp)
    rw [h4]; omega

/-- C5 witness: the state after the full `BypassProxy` sequence followed by
one direct send, reached by an explicit step chain. -/
theorem c5_witness :
    (0 <
        (⟨4, false, true, [BypassMsg.bypassProxy], 0, 1⟩ :
          BypassState).handed_to_new_link →
      BypassMsg.bypassProxy ∈
        (⟨4, false, true, [BypassMsg.bypassProxy], 0, 1⟩ :
          BypassState).wire) ∧
    ((⟨4, false, true, [BypassMsg.bypassProxy], 0, 1⟩ :
        BypassState).link_installed = true →
      (⟨4, false, true, [BypassMsg.bypassProxy], 0, 1⟩ :
        BypassState).paused = false →
      BypassMsg.bypassProxy ∈
        (⟨4, false, true, [BypassMsg.bypassProxy], 0, 1⟩ :
          BypassState).wire) :=
  c5_bypass_pause_ordering _
    (.step _ _
      (.step _ _
        (.step _ _
          (.step _ _
            (.step _ _ .init (.pauseOutbound initialBypassState rfl))
            (.setOutwardLink ⟨1, true, false, [], 0, 0⟩ rfl))
          (.transmitBypassProxy ⟨2, true, true, [], 0, 0⟩ rfl))
        (.unpauseOutbound ⟨3, true, true, [BypassMsg.bypassProxy], 0, 0⟩ rfl))
      (.sendDirect ⟨4, false, true, [BypassMsg.bypassProxy], 0, 0⟩ rfl rfl))

end Ipcz
